import Mathlib

/-!
Verification of the clawchat daemon (src/daemon/server.ts, bundled in the
repository sources) and of the attestation layer its spec describes.

The daemon is embedded shallowly: the mutable fields of the `Daemon` class
become a `DaemonState` record, file writes (`saveInbox`, `saveOutbox`,
`savePeers`) become mirror fields `diskInbox`/`diskOutbox`/`diskPeers`, and
every external effect (clock, RNG, libp2p dial, SNaP2P send, PX-1 resolve)
is supplied by a `DaemonEnv` of oracles consulted in program order.  A
JavaScript `Map` is an association list without duplicate keys; a JS
`Set`-union keeps first-occurrence order; `String.prototype.split`,
`join`, `trim` and hex encoding are reimplemented below with the same
semantics.  Functions that can throw return `Except String`; mutations
performed before a throw survive in the returned state, as they do in the
source.
-/

namespace Clawchat

/-! ## String helpers with JavaScript semantics -/

/-- Character-list version of the JavaScript `s.split(',')`: splitting the
empty list yields one empty piece, exactly as `"".split(',')` is `[""]`. -/
def splitCommaL : List Char → List (List Char)
  | [] => [[]]
  | c :: cs =>
    let r := splitCommaL cs
    if c = ',' then [] :: r
    else
      match r with
      | [] => [[c]]
      | h :: t => (c :: h) :: t

/-- Character-list version of `parts.join(',')`. -/
def joinCommaL : List (List Char) → List Char
  | [] => []
  | x :: xs =>
    match xs with
    | [] => x
    | _ :: _ => x ++ ',' :: joinCommaL xs

/-- JavaScript `s.split(',')`. -/
def splitComma (s : String) : List String :=
  (splitCommaL s.data).map String.mk

/-- JavaScript `parts.join(',')`. -/
def joinComma (ls : List String) : String :=
  String.mk (joinCommaL (ls.map String.data))

/-- Whitespace test for the model of `String.prototype.trim`. -/
def wsChar (c : Char) : Bool :=
  c = ' ' || c = '\t' || c = '\n' || c = '\r'

/-- JavaScript `s.trim()`. -/
def jsTrim (s : String) : String :=
  String.mk (((s.data.dropWhile wsChar).reverse.dropWhile wsChar).reverse)

/-- Insertion-ordered deduplication: the order in which
`[...new Set([...a, ...b])]` enumerates a JavaScript `Set`. -/
def dedupStr (l : List String) : List String :=
  l.foldl (fun acc x => if x ∈ acc then acc else acc ++ [x]) []

/-- Lowercase hex digit for a value below 16. -/
def hexDigitChar (n : Nat) : Char :=
  if n < 10 then Char.ofNat (48 + n) else Char.ofNat (87 + n)

/-- Lowercase hex encoding of a byte list:
`Buffer.from(bytes).toString('hex')`. -/
def hexOfBytes (bs : List Nat) : String :=
  String.mk (bs.foldr (fun b acc => hexDigitChar ((b / 16) % 16) :: hexDigitChar (b % 16) :: acc) [])

/-- Value of one hex digit, lowercase only. -/
def hexVal (c : Char) : Option Nat :=
  if 48 ≤ c.toNat ∧ c.toNat ≤ 57 then some (c.toNat - 48)
  else if 97 ≤ c.toNat ∧ c.toNat ≤ 102 then some (c.toNat - 87)
  else none

/-- Hex decoding of a character list, two digits per byte. -/
def hexDecodeL : List Char → Option (List Nat)
  | [] => some []
  | [_] => none
  | c1 :: c2 :: rest =>
    match hexVal c1, hexVal c2, hexDecodeL rest with
    | some h, some l, some bs => some ((16 * h + l) :: bs)
    | _, _, _ => none

/-- Hex decoding of a string. -/
def hexDecode (s : String) : Option (List Nat) :=
  hexDecodeL s.data

deriving instance DecidableEq for Except

/-! ## Data model (src/types.ts, fields as the daemon uses them) -/

/-- Message status; the source stores these as string literals. -/
inductive MsgStatus where
  | pending
  | sent
  | delivered
  | failed
deriving DecidableEq

/-- Message record.  The TypeScript field `from` is a reserved word in Lean
and is called `fromP` here; `to` and `alias` are likewise keywords and become `toP` and `aliasP`. -/
structure Message where
  id : String
  fromP : String
  fromNick : Option String
  toP : String
  content : String
  timestamp : Int
  status : MsgStatus
deriving DecidableEq

/-- Peer-book entry.  `address` stores one string of comma-joined
multiaddrs, exactly as the source does. -/
structure Peer where
  principal : String
  address : Option String
  aliasP : Option String
  lastSeen : Option Int
deriving DecidableEq

/-- In-memory view of a `Snap2pSession` as the daemon reads it. -/
structure SessionInfo where
  isAuthenticated : Bool
  peerId : Option String
deriving DecidableEq

/-- Mutable state of the `Daemon` class.  `disk...` fields mirror the last
`save...` write of each JSON file. -/
structure DaemonState where
  principal : String
  p2pPort : Int
  inbox : List Message
  outbox : List Message
  peers : List Peer
  sessions : List (String × SessionInfo)
  diskInbox : List Message
  diskOutbox : List Message
  diskPeers : List Peer
deriving DecidableEq

/-- Result of a PX-1 `resolve` call, fields as `tryDeliver` reads them. -/
structure ResolvedPeer where
  multiaddrs : List String
deriving DecidableEq

/-- Outcome of the `connect` IPC command's dial-and-authenticate sequence,
which is wrapped in its own try/catch in the source. -/
inductive ConnectOutcome where
  | failed (e : String)
  | dialedNoPeerId
  | authenticated (remote : Option String)
deriving DecidableEq

/-- Oracles for every external effect, consulted in program order: `sendOk k`
is whether the k-th `session.sendChatMessage` resolves (false = it throws and
is caught), `connectOk k` the boolean result of the k-th `tryConnect`,
`sessionsAfterConnect k` the sessions map after the SNaP2P events a
successful `tryConnect` fired, `resolveOutcome k` the k-th
`px1Handler.resolve` (an `Except.error` models a rejected promise, which the
source does not catch inside `tryDeliver`), `arrivals` the messages emitted
while a `recv` long-poll waits. -/
structure DaemonEnv where
  now : Int
  rand16 : List Nat
  sendOk : Nat → Bool
  connectOk : Nat → Bool
  sessionsAfterConnect : Nat → List (String × SessionInfo)
  resolveOutcome : Nat → Except String (Option ResolvedPeer)
  arrivals : List Message
  pxCache : String → Option ResolvedPeer
  connectCmd : ConnectOutcome
  peerId : Option String
  localMultiaddrs : List String

/-! ## Session map operations (a JS Map keyed by principal) -/

/-- JavaScript `this.sessions.get(p)`. -/
def lookupSession (ss : List (String × SessionInfo)) (p : String) : Option SessionInfo :=
  (ss.find? (fun e => e.fst = p)).map (fun e => e.snd)

/-- JavaScript `this.sessions.delete(p)`. -/
def deleteSession (ss : List (String × SessionInfo)) (p : String) : List (String × SessionInfo) :=
  ss.filter (fun e => e.fst ≠ p)

/-! ## Inbound chat frames (Daemon.handleMessage) -/

/-- Payload of a `chat` frame as `snap2pHandler` delivers it to
`handleMessage`; the TypeScript field `from` is called `fromP`. -/
structure ChatFrame where
  id : String
  fromP : String
  nick : Option String
  content : String
  timestamp : Int
deriving DecidableEq

/-- Daemon.handleMessage: builds a `delivered` message from the frame
(sender taken from the frame), pushes it onto the inbox and saves the
inbox.  The openclaw wake hook is an external fire-and-forget process with
no effect on daemon state. -/
def deliveredOf (frame : ChatFrame) (self : String) : Message :=
  { id := frame.id, fromP := frame.fromP, fromNick := frame.nick,
    toP := self, content := frame.content,
    timestamp := frame.timestamp, status := MsgStatus.delivered }

/-- Daemon.handleMessage, continued: push the record and save the inbox. -/
def handleMessage (frame : ChatFrame) (st : DaemonState) : DaemonState :=
  let m : Message := deliveredOf frame st.principal
  let ib := st.inbox ++ [m]
  { st with inbox := ib, diskInbox := ib }

/-- Modelled from the spec (section 4.F, "ACL rules"): the per-identity
allow-list check of the gateway's message router, whose implementation is
not among the repository files provided (only `gateway-config` tests and
the README document it).  Allow-lists hold principals verbatim and the
wildcard element is the string `"*"`. -/
def aclPermits (acl : List String) (sender : String) : Bool :=
  acl.contains sender || acl.contains "*"

/-! ## PX-1 peer merge (Daemon.handleReceivedPeers) -/

/-- Fields of a received PX-1 peer record that `handleReceivedPeers`
reads. -/
structure PeerAddressInfo where
  principal : String
  multiaddrs : List String
  lastSeen : Int
deriving DecidableEq

/-- Merge one received record into an existing peer entry:
`existing.address?.split(',') ?? []`, set-union with the new multiaddrs,
re-join with commas, and `lastSeen = Math.max(existing.lastSeen ?? 0,
peerInfo.lastSeen)`. -/
def mergePeer (p : Peer) (pi : PeerAddressInfo) : Peer :=
  let existingAddrs := match p.address with | some a => splitComma a | none => []
  let newAddrs := dedupStr (existingAddrs ++ pi.multiaddrs)
  { p with address := some (joinComma newAddrs),
           lastSeen := some (max (p.lastSeen.getD 0) pi.lastSeen) }

/-- Fresh peer entry pushed when the principal is unknown. -/
def newPeerOf (pi : PeerAddressInfo) : Peer :=
  { principal := pi.principal, address := some (joinComma pi.multiaddrs),
    aliasP := none, lastSeen := some pi.lastSeen }

/-- Replace the first entry whose principal matches (the entry
`this.peers.find` returns and the source mutates in place); `none` when no
entry matches. -/
def mergeFirst : List Peer → PeerAddressInfo → Option (List Peer)
  | [], _ => none
  | p :: rest, pi =>
    if p.principal = pi.principal then some (mergePeer p pi :: rest)
    else
      match mergeFirst rest pi with
      | some rest1 => some (p :: rest1)
      | none => none

/-- Body of the `for (const peerInfo of peers)` loop in
`handleReceivedPeers`: skip our own principal, merge into an existing entry
or push a new one. -/
def applyPeerInfo (self : String) (book : List Peer) (pi : PeerAddressInfo) : List Peer :=
  if pi.principal = self then book
  else
    match mergeFirst book pi with
    | some book1 => book1
    | none => book ++ [newPeerOf pi]

/-- Daemon.handleReceivedPeers: fold the received records into the peer book
and save it. -/
def handleReceivedPeers (st : DaemonState) (infos : List PeerAddressInfo) : DaemonState :=
  let ps := infos.foldl (applyPeerInfo st.principal) st.peers
  { st with peers := ps, diskPeers := ps }

/-! ## Delivery engine (Daemon.tryDeliver, Daemon.processOutbox)

The message `tryDeliver` mutates is an outbox entry (pushed by `send` or
picked by `processOutbox`), so the embedding addresses it by its outbox
index.  The oracle counter `k` is threaded through every external call. -/

/-- Set the entry at `idx` to status `sent` and save the outbox (the
`message.status = 'sent'; this.saveOutbox()` pair). -/
def markSent (st : DaemonState) (idx : Nat) : DaemonState :=
  match st.outbox[idx]? with
  | some m =>
    let ob := st.outbox.set idx { m with status := MsgStatus.sent }
    { st with outbox := ob, diskOutbox := ob }
  | none => st

/-- Daemon.tryConnect: dial the address and, when a peer id is present,
open a SNaP2P stream.  Dial and handshake are external; the oracle gives
the boolean result, and on success the sessions map becomes whatever the
SNaP2P session events made it.  All errors are caught inside, so
`tryConnect` never throws. -/
def tryConnect (env : DaemonEnv) (k : Nat) (st : DaemonState) : Bool × DaemonState × Nat :=
  if env.connectOk k then (true, { st with sessions := env.sessionsAfterConnect k }, k + 1)
  else (false, st, k + 1)

/-- Address loop of `tryDeliver` (used both for `peer.address.split(',')`
and for PX-1 resolved multiaddrs): try to connect, and if an authenticated
session to the recipient appears, try to send; a send error is caught and
the loop continues. -/
def deliverAddrLoop (env : DaemonEnv) (idx : Nat) (toP : String) :
    List String → DaemonState → Nat → DaemonState × Nat × Bool
  | [], st, k => (st, k, false)
  | _addr :: rest, st, k =>
    let c := tryConnect env k st
    if c.fst then
      match lookupSession c.snd.fst.sessions toP with
      | some s =>
        if s.isAuthenticated then
          if env.sendOk c.snd.snd then (markSent c.snd.fst idx, c.snd.snd + 1, true)
          else deliverAddrLoop env idx toP rest c.snd.fst (c.snd.snd + 1)
        else deliverAddrLoop env idx toP rest c.snd.fst c.snd.snd
      | none => deliverAddrLoop env idx toP rest c.snd.fst c.snd.snd
    else deliverAddrLoop env idx toP rest c.snd.fst c.snd.snd

/-- PX-1 resolution loop of `tryDeliver`: for each connected session with a
peer id, resolve the recipient and try the returned multiaddrs.  The
`resolve` call is not inside a try/catch in the source, so its rejection
propagates out. -/
def deliverResolveLoop (env : DaemonEnv) (idx : Nat) (toP : String) :
    List (String × SessionInfo) → DaemonState → Nat → DaemonState × Nat × Except String Bool
  | [], st, k => (st, k, Except.ok false)
  | (_, cs) :: rest, st, k =>
    match cs.peerId with
    | none => deliverResolveLoop env idx toP rest st k
    | some _ =>
      match env.resolveOutcome k with
      | Except.error e => (st, k + 1, Except.error e)
      | Except.ok none => deliverResolveLoop env idx toP rest st (k + 1)
      | Except.ok (some r) =>
        if r.multiaddrs.length > 0 then
          let a := deliverAddrLoop env idx toP r.multiaddrs st (k + 1)
          if a.snd.snd then (a.fst, a.snd.fst, Except.ok true)
          else deliverResolveLoop env idx toP rest a.fst a.snd.fst
        else deliverResolveLoop env idx toP rest st (k + 1)

/-- Continuation of `tryDeliver` after the existing-session attempt: the
`!peer?.address` test (false for a missing peer, a missing address and the
empty string) selects the PX-1 branch, otherwise the comma-separated
addresses are tried in order.  `px1Handler` is non-null once the daemon has
started. -/
def tryDeliverRest (env : DaemonEnv) (k : Nat) (idx : Nat) (toP : String) (st : DaemonState) :
    DaemonState × Nat × Except String Bool :=
  let addrOpt := (st.peers.find? (fun p => p.principal = toP)).bind (fun p => p.address)
  match addrOpt with
  | some a =>
    if a = "" then
      if st.sessions.length > 0 then deliverResolveLoop env idx toP st.sessions st k
      else (st, k, Except.ok false)
    else
      let r := deliverAddrLoop env idx toP ((splitComma a).map jsTrim) st k
      (r.fst, r.snd.fst, Except.ok r.snd.snd)
  | none =>
    if st.sessions.length > 0 then deliverResolveLoop env idx toP st.sessions st k
    else (st, k, Except.ok false)

/-- Daemon.tryDeliver for the outbox entry at `idx`: first try an existing
authenticated session (on a send error the session is deleted), then dial
known or resolved addresses.  Returns whether a send succeeded; an
`Except.error` is the uncaught rejection of a PX-1 resolve. -/
def tryDeliver (env : DaemonEnv) (k : Nat) (idx : Nat) (st : DaemonState) :
    DaemonState × Nat × Except String Bool :=
  match st.outbox[idx]? with
  | none => (st, k, Except.ok false)
  | some msg =>
    match lookupSession st.sessions msg.toP with
    | some s =>
      if s.isAuthenticated then
        if env.sendOk k then (markSent st idx, k + 1, Except.ok true)
        else tryDeliverRest env (k + 1) idx msg.toP
          { st with sessions := deleteSession st.sessions msg.toP }
      else tryDeliverRest env k idx msg.toP st
    | none => tryDeliverRest env k idx msg.toP st

/-- Indices of the entries `this.outbox.filter(m => m.status === 'pending')`
snapshots before the retry loop runs. -/
def pendingIdxs (ms : List Message) : List Nat :=
  (List.range ms.length).filter (fun i =>
    match ms[i]? with
    | some m => m.status = MsgStatus.pending
    | none => false)

/-- Retry loop body: deliver each snapshotted entry in order; an uncaught
rejection aborts the rest of the tick (the source awaits inside a plain
`for` loop with no catch). -/
def processOutboxAux (env : DaemonEnv) :
    List Nat → DaemonState → Nat → DaemonState × Nat × Option String
  | [], st, k => (st, k, none)
  | i :: rest, st, k =>
    match tryDeliver env k i st with
    | (st1, k1, Except.ok _) => processOutboxAux env rest st1 k1
    | (st1, k1, Except.error e) => (st1, k1, some e)

/-- Daemon.processOutbox: try to deliver every pending outbox entry. -/
def processOutbox (env : DaemonEnv) (k : Nat) (st : DaemonState) :
    DaemonState × Nat × Option String :=
  processOutboxAux env (pendingIdxs st.outbox) st k

/-! ## IPC command layer (Daemon.handleIpcCommand and friends) -/

/-- IPC commands, as the `IpcCommand` union type declares them. -/
inductive IpcCommand where
  | send (toP content : String)
  | recv (since : Option Int) (timeout : Option Int)
  | inbox
  | outbox
  | peers
  | peerAdd (principal address : String) (aliasArg : Option String)
  | peerRemove (principal : String)
  | peerResolve (principal : String) (through : Option String)
  | status
  | multiaddrs
  | connect (multiaddr : String)
  | stop
deriving DecidableEq

/-- Shapes of the `data` field of an IPC response. -/
inductive IpcData where
  | sendQueued (id : String)
  | messages (ms : List Message)
  | peersConn (ps : List (Peer × Bool))
  | peerSaved (p : Peer)
  | resolvedData (r : Option ResolvedPeer)
  | statusData (principal : String) (peerId : Option String) (p2pPort : Int)
      (multiaddrs : List String) (connectedPeers : List String)
      (inboxCount : Nat) (outboxCount : Nat)
  | multiaddrList (addrs : List String)
  | connectedTo (principal : Option (Option String))
deriving DecidableEq

/-- One IPC response line. -/
structure IpcResponse where
  ok : Bool
  data : Option IpcData
  error : Option String
deriving DecidableEq

/-- Result of handling one command: a response, an uncaught exception, or
process exit (the `stop` handler calls `process.exit(0)` before its return
statement can run). -/
inductive CmdResult where
  | resp (r : IpcResponse)
  | thrown (e : String)
  | exits
deriving DecidableEq

/-- Response dedup map of `recvWithTimeout`: `new Map(ms.map(m => [m.id,
m]))` keeps the first-occurrence position and the last value per id. -/
def upsertById (acc : List Message) (m : Message) : List Message :=
  if acc.any (fun x => x.id = m.id) then acc.map (fun x => if x.id = m.id then m else x)
  else acc ++ [m]

/-- Deduplicate a message list by id with JS `Map` semantics. -/
def dedupeById (ms : List Message) : List Message :=
  ms.foldl upsertById []

/-- Daemon.recvWithTimeout: the messages already in the inbox with
timestamp after `since`, together with those delivered while the call
waits, deduplicated by id.  The wall-clock wait itself is external; the
`arrivals` list stands for the `message` events the handler collected. -/
def recvWithTimeout (since : Int) (inbox arrivals : List Message) : List Message :=
  dedupeById ((inbox.filter (fun m => m.timestamp > since)) ++
    (arrivals.filter (fun m => m.timestamp > since)))

/-- Shorthand for a successful response with data. -/
def okData (d : IpcData) : CmdResult :=
  CmdResult.resp { ok := true, data := some d, error := none }

/-- Record the `send` command builds: a fresh id from 16 random bytes in
hex, the daemon principal as sender, status `pending`, current time. -/
def queuedOf (env : DaemonEnv) (st : DaemonState) (toP content : String) : Message :=
  { id := hexOfBytes env.rand16, fromP := st.principal, fromNick := none,
    toP := toP, content := content, timestamp := env.now,
    status := MsgStatus.pending }

/-- Case `send` of Daemon.handleIpcCommand: push the pending record, save
the outbox, try immediate delivery, reply `{id, status:'queued'}`.  The
`tryDeliver` rejection (uncaught in the source) propagates. -/
def handleSend (env : DaemonEnv) (k : Nat) (toP content : String) (st : DaemonState) :
    DaemonState × Nat × CmdResult :=
  let ob := st.outbox ++ [queuedOf env st toP content]
  let st1 := { st with outbox := ob, diskOutbox := ob }
  match tryDeliver env k (ob.length - 1) st1 with
  | (st2, k2, Except.ok _) => (st2, k2, okData (IpcData.sendQueued (hexOfBytes env.rand16)))
  | (st2, k2, Except.error e) => (st2, k2, CmdResult.thrown e)

/-- Daemon.handleIpcCommand.  Each case follows the source switch; state
changes and oracle consultations happen in program order. -/
def handleIpcCommand (env : DaemonEnv) (k : Nat) (cmd : IpcCommand) (st : DaemonState) :
    DaemonState × Nat × CmdResult :=
  match cmd with
  | IpcCommand.send toP content => handleSend env k toP content st
  | IpcCommand.recv since timeout =>
    let s := since.getD 0
    let t := timeout.getD 0
    if t ≤ 0 then
      (st, k, okData (IpcData.messages (st.inbox.filter (fun m => m.timestamp > s))))
    else
      (st, k, okData (IpcData.messages (recvWithTimeout s st.inbox env.arrivals)))
  | IpcCommand.inbox => (st, k, okData (IpcData.messages st.inbox))
  | IpcCommand.outbox => (st, k, okData (IpcData.messages st.outbox))
  | IpcCommand.peers =>
    (st, k, okData (IpcData.peersConn (st.peers.map (fun p =>
      (p, (lookupSession st.sessions p.principal).isSome)))))
  | IpcCommand.peerAdd principal address aliasArg =>
    let p : Peer :=
      { principal := principal, address := some address, aliasP := aliasArg,
        lastSeen := some env.now }
    let ps :=
      match st.peers.findIdx? (fun q => q.principal = principal) with
      | some i => st.peers.set i p
      | none => st.peers ++ [p]
    ({ st with peers := ps, diskPeers := ps }, k, okData (IpcData.peerSaved p))
  | IpcCommand.peerRemove principal =>
    let ps := st.peers.filter (fun q => q.principal ≠ principal)
    ({ st with peers := ps, diskPeers := ps }, k,
      CmdResult.resp { ok := true, data := none, error := none })
  | IpcCommand.peerResolve principal through =>
    match through with
    | some th =>
      match (lookupSession st.sessions th).bind (fun s => s.peerId) with
      | some _ =>
        (match env.resolveOutcome k with
         | Except.error e => (st, k + 1, CmdResult.thrown e)
         | Except.ok r => (st, k + 1, okData (IpcData.resolvedData r)))
      | none =>
        (st, k, CmdResult.resp
          { ok := false, data := none, error := some "Not connected to relay peer" })
    | none => (st, k, okData (IpcData.resolvedData (env.pxCache principal)))
  | IpcCommand.status =>
    (st, k, okData (IpcData.statusData st.principal env.peerId st.p2pPort
      env.localMultiaddrs (st.sessions.map (fun e => e.fst)) st.inbox.length
      ((st.outbox.filter (fun m => m.status = MsgStatus.pending)).length)))
  | IpcCommand.multiaddrs => (st, k, okData (IpcData.multiaddrList env.localMultiaddrs))
  | IpcCommand.connect _ =>
    (match env.connectCmd with
     | ConnectOutcome.failed e =>
       (st, k, CmdResult.resp { ok := false, data := none, error := some e })
     | ConnectOutcome.dialedNoPeerId => (st, k, okData (IpcData.connectedTo none))
     | ConnectOutcome.authenticated remote =>
       ({ st with sessions := env.sessionsAfterConnect k }, k + 1,
         okData (IpcData.connectedTo (some remote))))
  | IpcCommand.stop => ({ st with sessions := [] }, k, CmdResult.exits)

/-! ## IPC connection framing (Daemon.handleIpcConnection) -/

/-- Lexical classes of one newline-delimited request line: blank (skipped),
text `JSON.parse` rejects, or a parsed command. -/
inductive IpcLine where
  | blank
  | invalid (e : String)
  | cmd (c : IpcCommand)

/-- Handling of one line: blank lines are skipped; a parse failure or an
exception from the handler is caught and answered with one
`{ok:false,error}` line; `stop` exits the process before a response is
written (the final Bool). -/
def handleIpcLine (env : DaemonEnv) (k : Nat) (line : IpcLine) (st : DaemonState) :
    DaemonState × Nat × List IpcResponse × Bool :=
  match line with
  | IpcLine.blank => (st, k, [], false)
  | IpcLine.invalid e => (st, k, [{ ok := false, data := none, error := some e }], false)
  | IpcLine.cmd c =>
    match handleIpcCommand env k c st with
    | (st1, k1, CmdResult.resp r) => (st1, k1, [r], false)
    | (st1, k1, CmdResult.thrown e) =>
      (st1, k1, [{ ok := false, data := none, error := some e }], false)
    | (st1, k1, CmdResult.exits) => (st1, k1, [], true)

/-- Handling of a sequence of buffered lines; the loop dies with the
process when a line exits. -/
def handleIpcLines (env : DaemonEnv) :
    List IpcLine → DaemonState → Nat → DaemonState × Nat × List IpcResponse
  | [], st, k => (st, k, [])
  | l :: rest, st, k =>
    match handleIpcLine env k l st with
    | (st1, k1, outs, true) => (st1, k1, outs)
    | (st1, k1, outs, false) =>
      let r := handleIpcLines env rest st1 k1
      (r.fst, r.snd.fst, outs ++ r.snd.snd)

/-! ## Attestations (identity/local.ts and identity/keys.ts, staged in
src/SKILL.md)

`createAttestation` / `verifyAttestation` dispatch on the identity mode
and the principal prefix; a local attestation is an Ed25519 signature over
a `JSON.stringify` payload, a stacks attestation a recoverable secp256k1
signature over a CBOR payload.  Only the repository-external pieces — the
`@noble` Ed25519 primitives, the `cborg` encoder, and the dynamically
imported wallet module (`wallet.ts`, `wallet-utils.ts`, which are not
among the staged files) — are idealised; each such definition carries a
doc comment saying so.  Idealised signatures are perfectly binding: a
signature is the signer's public key followed by the signed payload. -/

/-- Identity mode tag (`IdentityMode = 'local' | 'stacks'` in
`identity/keys.ts`). -/
inductive IdMode where
  | localMode
  | stacksMode
deriving DecidableEq

/-- Modelled from the spec: `ed25519.getPublicKey` of the external noble
library, idealised as the identity map on 32-byte scalars — injective,
which is the only property the development uses. -/
def edPub (priv : List Nat) : List Nat := priv

/-- Modelled from the spec: ideal `ed25519.sign` — the signature
determines the signer's public key and the signed message. -/
def edSign (priv msg : List Nat) : List Nat := edPub priv ++ msg

/-- Modelled from the spec: ideal `ed25519.verify` — accepts exactly the
signature `edSign` produces for the matching key pair. -/
def edVerify (sig msg pub : List Nat) : Bool := sig = pub ++ msg

/-- Modelled from the spec: the wallet (secp256k1) key derivation of the
unstaged wallet module, idealised as the identity map on 33-byte keys. -/
def wPub (priv : List Nat) : List Nat := priv

/-- Modelled from the spec: ideal recoverable wallet signature
(`walletInstance.sign` of the unstaged wallet module). -/
def wSign (priv msg : List Nat) : List Nat := wPub priv ++ msg

/-- Modelled from the spec: the c32check Stacks address of a wallet public
key, testnet flag respected; stands for the unstaged wallet module's
address derivation, injective in the key. -/
def stacksAddr (testnet : Bool) (wpk : List Nat) : String :=
  (if testnet then "ST" else "SP") ++ hexOfBytes wpk

/-- Modelled from the spec: `verifyWalletSignature` of the unstaged wallet
module — recovers the signer's wallet key from the idealised recoverable
signature over the given message and compares its address with the
expected one. -/
def verifyWalletSignature (msg sig : List Nat) (address : String)
    (testnet : Bool) : Bool :=
  33 ≤ sig.length ∧ sig.drop 33 = msg ∧ stacksAddr testnet (sig.take 33) = address

/-- Attestation record (`NodeKeyAttestation`), fields as
`identity/local.ts` and `identity/keys.ts` build and read them. -/
structure Attestation where
  version : Nat
  principal : String
  nodePublicKey : List Nat
  issuedAt : Int
  expiresAt : Int
  nonce : List Nat
  domain : String
  signature : List Nat
deriving DecidableEq

/-- `ATTESTATION_DOMAIN` of `identity/keys.ts`, also the literal in
`identity/local.ts`. -/
def attDomain : String := "snap2p-nodekey-attestation-v1"

/-- JSON escape of one character, as ECMA-262 `QuoteJSONString` renders
the string fields inside `JSON.stringify`'s output: quote and backslash
escaped, the named control escapes, `\u00xx` for the other control
characters, everything else verbatim. -/
def jsonEscChar (c : Char) : List Char :=
  if c = '"' then ['\\', '"']
  else if c = '\\' then ['\\', '\\']
  else if c = Char.ofNat 8 then ['\\', 'b']
  else if c = Char.ofNat 9 then ['\\', 't']
  else if c = Char.ofNat 10 then ['\\', 'n']
  else if c = Char.ofNat 12 then ['\\', 'f']
  else if c = Char.ofNat 13 then ['\\', 'r']
  else if c.toNat < 32 then
    ['\\', 'u', '0', '0', hexDigitChar (c.toNat / 16), hexDigitChar (c.toNat % 16)]
  else [c]

/-- JSON escape of a character list. -/
def jsonEscL : List Char → List Char
  | [] => []
  | c :: rest => jsonEscChar c ++ jsonEscL rest

/-- A JSON string token: quote, escaped content, quote. -/
def jsonQuoteL (s : String) : List Char := '"' :: (jsonEscL s.data ++ ['"'])

/-- The characters of
`JSON.stringify({v, p, npk, ts, exp, nonce, domain})` exactly as
`createLocalAttestation` / `verifyLocalAttestation` build it:
insertion-ordered keys, string fields quoted and escaped, numbers in
decimal. -/
def jsonAttPayloadL (v : Nat) (p npkHex : String) (ts ex : Int)
    (nonceHex domain : String) : List Char :=
  ("\x7b\"v\":" ++ toString v ++ ",\"p\":").data ++
    (jsonQuoteL p ++
      ((",\"npk\":").data ++
        (jsonQuoteL npkHex ++
          ((",\"ts\":" ++ toString ts ++ ",\"exp\":" ++ toString ex ++
              ",\"nonce\":").data ++
            (jsonQuoteL nonceHex ++
              ((",\"domain\":").data ++ (jsonQuoteL domain ++ ['\x7d'])))))))

/-- Modelled from the spec: `new TextEncoder().encode` — code points stand
for the UTF-8 bytes.  The encoding is injective, which is the only
property the development uses of it. -/
def utfBytes (l : List Char) : List Nat := l.map Char.toNat

/-- The byte payload a local attestation signs, reconstructed from the
record's fields exactly as `verifyLocalAttestation` does (with
`bytesToHex` of the node key and nonce). -/
def localAttPayload (att : Attestation) : List Nat :=
  utfBytes (jsonAttPayloadL att.version att.principal
    (hexOfBytes att.nodePublicKey) att.issuedAt att.expiresAt
    (hexOfBytes att.nonce) att.domain)

/-- Length-prefixed string field of the idealised CBOR encoding. -/
def encStr (s : String) : List Nat := s.data.length :: s.data.map Char.toNat

/-- Length-prefixed byte-string field of the idealised CBOR encoding. -/
def encB (bs : List Nat) : List Nat := bs.length :: bs

/-- Sign-and-magnitude integer field of the idealised CBOR encoding. -/
def encI (i : Int) : List Nat := [if i < 0 then 1 else 0, i.natAbs]

/-- Modelled from the spec: `cborg.encode` (an external library) of the
fixed-shape attestation map `{v, p, npk, ts, exp, nonce, domain}` that
`identity/keys.ts` signs for stacks attestations — idealised as a
deterministic field-injective encoding opening with CBOR's map-of-seven
header byte 0xA7. -/
def cborAttPayload (att : Attestation) : List Nat :=
  167 :: att.version ::
    (encStr att.principal ++
      (encStr (hexOfBytes att.nodePublicKey) ++
        (encI att.issuedAt ++
          (encI att.expiresAt ++ (encB att.nonce ++ encStr att.domain)))))

/-- `LocalIdentityData` of `identity/local.ts` — the fields the
attestation code reads. -/
structure LocalIdentityData where
  publicKey : List Nat
  privateKey : List Nat
  principal : String
deriving DecidableEq

/-- identity/local.ts createLocalAttestation: issued-at `now`
(`Math.floor(Date.now() / 1000)`), expires-at `now + validitySeconds`
(86400 by default), a fresh 32-byte nonce (`randomBytes(32)`), and an
Ed25519 signature over the JSON payload.  `now` and `nonce` stand for the
clock and randomness reads. -/
def createLocalAttestation (id : LocalIdentityData) (nodePublicKey : List Nat)
    (validity now : Int) (nonce : List Nat) : Attestation :=
  let base : Attestation :=
    { version := 1, principal := id.principal, nodePublicKey := nodePublicKey,
      issuedAt := now, expiresAt := now + validity, nonce := nonce,
      domain := attDomain, signature := [] }
  { base with signature := edSign id.privateKey (localAttPayload base) }

/-- List-level test for a string prefix (JavaScript `startsWith`). -/
def strStarts (pre s : String) : Bool :=
  pre.data.isPrefixOf s.data

/-- JavaScript `s.slice(n)` for characters. -/
def strDrop (n : Nat) (s : String) : String :=
  String.mk (s.data.drop n)

/-- identity/local.ts verifyLocalAttestation: the check chain in source
order — version, domain, nonce length 16..32, expiry and future-timestamp
with the 300 s skew, node-key length, `local:` prefix, hex-decode of the
embedded key (a throwing `hexToBytes` yields `false`), key length 32, and
Ed25519 verification of the reconstructed JSON payload. -/
def verifyLocalAttestation (now : Int) (att : Attestation) : Bool :=
  if att.version ≠ 1 then false
  else if att.domain ≠ attDomain then false
  else if att.nonce.length < 16 ∨ 32 < att.nonce.length then false
  else if att.expiresAt ≤ now - 300 then false
  else if att.issuedAt > now + 300 then false
  else if att.nodePublicKey.length ≠ 32 then false
  else if ¬ strStarts "local:" att.principal then false
  else
    match hexDecode (strDrop 6 att.principal) with
    | none => false
    | some pk =>
      if pk.length ≠ 32 then false
      else edVerify att.signature (localAttPayload att) pk

/-- `FullIdentity` of `identity/keys.ts` — the fields the attestation code
reads; `walletPrivateKey` stands for the wallet key material
`walletFromSeedPhrase` recovers from the mnemonic. -/
structure FullIdentity where
  mode : IdMode
  principal : String
  publicKey : List Nat
  privateKey : List Nat
  walletPrivateKey : List Nat
  testnet : Bool
deriving DecidableEq

/-- identity/keys.ts identityModeFromPrincipal: a `local:` prefix is
local, a `stacks:` prefix is stacks, and anything else defaults to stacks
for backward compatibility. -/
def identityModeFromPrincipal (p : String) : IdMode :=
  if strStarts "local:" p then IdMode.localMode
  else if strStarts "stacks:" p then IdMode.stacksMode
  else IdMode.stacksMode

/-- identity/keys.ts createAttestation: dispatches on the identity mode.
Local mode signs with the identity key and uses that same key as the node
public key; stacks mode signs the CBOR payload with the wallet key.
`now` and the 32-byte `nonce` stand for the `Date.now()` and
`randomBytes(32)` reads. -/
def createAttestation (id : FullIdentity) (validity now : Int)
    (nonce : List Nat) : Attestation :=
  match id.mode with
  | IdMode.localMode =>
    createLocalAttestation
      { publicKey := id.publicKey, privateKey := id.privateKey,
        principal := id.principal }
      id.publicKey validity now nonce
  | IdMode.stacksMode =>
    let base : Attestation :=
      { version := 1, principal := id.principal, nodePublicKey := id.publicKey,
        issuedAt := now, expiresAt := now + validity, nonce := nonce,
        domain := attDomain, signature := [] }
    { base with signature := wSign id.walletPrivateKey (cborAttPayload base) }

/-- JavaScript `s.replace(pat, '')` for a plain-string pattern: remove the
first occurrence, leave the string unchanged when the pattern is absent. -/
def replFirstL (pat : List Char) : List Char → List Char
  | [] => []
  | c :: rest =>
    if pat.isPrefixOf (c :: rest) then (c :: rest).drop pat.length
    else c :: replFirstL pat rest

def strReplaceFirst (pat s : String) : String :=
  String.mk (replFirstL pat.data s.data)

/-- identity/keys.ts verifyStacksAttestation: the same leading checks as
the local verifier, then the `_walletModule` guard (the `walletLoaded`
oracle here), then wallet-signature verification of the CBOR payload
against the address cut out of the principal with
`principal.replace('stacks:', '')`. -/
def verifyStacksAttestation (walletLoaded : Bool) (now : Int)
    (att : Attestation) (testnet : Bool) : Bool :=
  if att.version ≠ 1 then false
  else if att.domain ≠ attDomain then false
  else if att.nonce.length < 16 ∨ 32 < att.nonce.length then false
  else if att.expiresAt ≤ now - 300 then false
  else if att.issuedAt > now + 300 then false
  else if att.nodePublicKey.length ≠ 32 then false
  else if ¬ walletLoaded then false
  else
    verifyWalletSignature (cborAttPayload att) att.signature
      (strReplaceFirst "stacks:" att.principal) testnet

/-- identity/keys.ts verifyAttestation: dispatch on the principal's
prefix — `local:` principals go to the Ed25519 verifier, everything else
(including unknown prefixes) to stacks verification. -/
def verifyAttestation (walletLoaded : Bool) (now : Int) (att : Attestation)
    (testnet : Bool) : Bool :=
  match identityModeFromPrincipal att.principal with
  | IdMode.localMode => verifyLocalAttestation now att
  | IdMode.stacksMode => verifyStacksAttestation walletLoaded now att testnet

/-! ## Concrete fixtures for counterexamples and witnesses -/

/-- Freshly started daemon state with empty mailboxes and peer book. -/
def st0 : DaemonState :=
  { principal := "local:me", p2pPort := 9000, inbox := [], outbox := [], peers := [],
    sessions := [], diskInbox := [], diskOutbox := [], diskPeers := [] }

/-- Environment in which every external operation is quiet: no session
events, connects and sends fail, resolves return nothing. -/
def env0 : DaemonEnv :=
  { now := 5, rand16 := List.replicate 16 171, sendOk := fun _ => false,
    connectOk := fun _ => false, sessionsAfterConnect := fun _ => [],
    resolveOutcome := fun _ => Except.ok none, arrivals := [],
    pxCache := fun _ => none, connectCmd := ConnectOutcome.dialedNoPeerId,
    peerId := none, localMultiaddrs := [] }

/-- Inbound chat frame from a principal the (empty) ACL does not list. -/
def frame1 : ChatFrame :=
  { id := "m1", fromP := "local:mallory", nick := none, content := "hi", timestamp := 1 }

/-- Message already delivered to the inbox, sharing its id with `frame1`. -/
def msg1 : Message :=
  { id := "m1", fromP := "local:mallory", fromNick := none, toP := "local:me",
    content := "hi", timestamp := 1, status := MsgStatus.delivered }

/-- Daemon state whose inbox already holds `msg1`. -/
def stDup : DaemonState := { st0 with inbox := [msg1] }

/-! ## C1: inbound routing and the ACL -/

/-- C1 counterexample: the empty allow-list (no entry for the sender, no
wildcard) must according to the claim make `handleMessage` drop the frame,
yet the inbox grows by a message from that very sender — the daemon's
inbound path consults no ACL at all. -/
theorem acl_ignored_on_inbound :
    aclPermits [] "local:mallory" = false ∧
    (handleMessage frame1 st0).inbox ≠ st0.inbox ∧
    ∃ m ∈ (handleMessage frame1 st0).inbox,
      m.fromP = "local:mallory" ∧ m.status = MsgStatus.delivered := by
  refine ⟨rfl, by decide, ?_⟩
  exact ⟨deliveredOf frame1 "local:me", by decide, rfl, rfl⟩

/-- C1 amended: `Daemon.handleMessage` appends every inbound chat frame to
the identity's inbox as a `delivered` message whose sender is the frame's
`from` field, regardless of any allow-list, and saves the inbox; nothing
else in the daemon state changes.  Inbox membership therefore does not
witness ACL permission. -/
theorem handleMessage_appends_unconditionally (frame : ChatFrame) (st : DaemonState) :
    (handleMessage frame st).inbox = st.inbox ++ [deliveredOf frame st.principal] ∧
    (handleMessage frame st).diskInbox = (handleMessage frame st).inbox ∧
    (handleMessage frame st).outbox = st.outbox ∧
    (handleMessage frame st).peers = st.peers ∧
    (handleMessage frame st).sessions = st.sessions := by
  exact ⟨rfl, rfl, rfl, rfl, rfl⟩

/-! ## C2: duplicate message ids in the inbox -/

/-- C2 counterexample: the same chat frame handled twice is appended twice;
the second handling does not leave the inbox unchanged, and the resulting
inbox holds two messages with one id. -/
theorem duplicate_frame_appended_twice :
    (handleMessage frame1 (handleMessage frame1 st0)).inbox ≠
      (handleMessage frame1 st0).inbox ∧
    ¬ ((handleMessage frame1 (handleMessage frame1 st0)).inbox.map
        (fun m => m.id)).Nodup := by
  exact ⟨by decide, by decide⟩

/-- C2 amended: a chat frame whose id already occurs in the inbox is not
dropped — `Daemon.handleMessage` appends it all the same, so the inbox can
hold several messages with one id (deduplication by id happens only in the
result of `recvWithTimeout`). -/
theorem handleMessage_keeps_duplicates (frame : ChatFrame) (st : DaemonState)
    (h : frame.id ∈ st.inbox.map (fun m => m.id)) :
    (handleMessage frame st).inbox = st.inbox ++ [deliveredOf frame st.principal] ∧
    ¬ ((handleMessage frame st).inbox.map (fun m => m.id)).Nodup := by
  refine ⟨rfl, ?_⟩
  intro hnd
  rw [show (handleMessage frame st).inbox = st.inbox ++ [deliveredOf frame st.principal] from rfl,
    List.map_append, List.nodup_append] at hnd
  exact hnd.2.2 h (by simp [deliveredOf])

/-- C2 witness: the amended statement at a concrete duplicate. -/
theorem handleMessage_keeps_duplicates_witness :
    (handleMessage frame1 stDup).inbox = [msg1] ++ [deliveredOf frame1 "local:me"] ∧
    ¬ ((handleMessage frame1 stDup).inbox.map (fun m => m.id)).Nodup :=
  handleMessage_keeps_duplicates frame1 stDup (by decide)

/-! ## C5 and C10: peer_add and peer_remove -/

/-- First peer entry whose principal matches, as `this.peers.find`
returns it. -/
def findPeer (book : List Peer) (pr : String) : Option Peer :=
  book.find? (fun p => p.principal = pr)

/-- Peer-book update of the `peer_add` command: replace the entry at the
first matching index (`findIndex` plus assignment), or push. -/
def peerAddBook (book : List Peer) (p : Peer) : List Peer :=
  match book.findIdx? (fun q => q.principal = p.principal) with
  | some i => book.set i p
  | none => book ++ [p]

/-- Recursive characterisation of `peerAddBook`. -/
def peerAddRec : List Peer → Peer → List Peer
  | [], p => [p]
  | q :: rest, p =>
    if q.principal = p.principal then p :: rest else q :: peerAddRec rest p

theorem peerAddBook_eq_rec (book : List Peer) (p : Peer) :
    peerAddBook book p = peerAddRec book p := by
  induction book with
  | nil => rfl
  | cons q rest ih =>
    by_cases hq : q.principal = p.principal
    · simp [peerAddBook, List.findIdx?_cons, hq, peerAddRec]
    · simp only [peerAddBook, List.findIdx?_cons, decide_eq_false hq, Bool.false_eq_true,
        if_false, peerAddRec, if_neg hq]
      rw [List.findIdx?_succ]
      cases hidx : List.findIdx? (fun q => decide (q.principal = p.principal)) rest with
      | none =>
        simp only [peerAddBook, hidx] at ih
        simp [ih]
      | some i =>
        simp only [peerAddBook, hidx] at ih
        simp [ih]

theorem findPeer_peerAddRec_self (book : List Peer) (p : Peer) :
    findPeer (peerAddRec book p) p.principal = some p := by
  induction book with
  | nil => simp [peerAddRec, findPeer]
  | cons q rest ih =>
    by_cases hq : q.principal = p.principal
    · simp [peerAddRec, hq, findPeer]
    · simp [peerAddRec, hq, findPeer, List.find?_cons] at ih ⊢
      exact ih

theorem findPeer_peerAddRec_other (book : List Peer) (p : Peer) (pr : String)
    (hne : pr ≠ p.principal) :
    findPeer (peerAddRec book p) pr = findPeer book pr := by
  induction book with
  | nil =>
    have : p.principal ≠ pr := fun h => hne h.symm
    simp [peerAddRec, findPeer, this]
  | cons q rest ih =>
    by_cases hq : q.principal = p.principal
    · have hqr : q.principal ≠ pr := by rw [hq]; exact fun h => hne h.symm
      have hpr : p.principal ≠ pr := fun h => hne h.symm
      simp [peerAddRec, hq, findPeer, List.find?_cons, hqr, hpr, hne]
    · by_cases hqpr : q.principal = pr
      · simp [peerAddRec, hq, findPeer, List.find?_cons, hqpr, hne]
      · simp [peerAddRec, hq, findPeer, List.find?_cons, hqpr, hne] at ih ⊢
        exact ih

/-- C5 counterexample: an entry already holding address `/a` is given a
second address `/b` by `peer_add`; the claim requires the stored address
set to be the union of old and new, but the stored entry keeps only `/b` —
the old address is discarded. -/
theorem peer_add_drops_old_address :
    (handleIpcCommand env0 0 (IpcCommand.peerAdd "local:p" "/b" none)
        { st0 with peers := [{ principal := "local:p", address := some "/a",
                               aliasP := none, lastSeen := some 1 }] }).fst.peers =
      [{ principal := "local:p", address := some "/b", aliasP := none,
         lastSeen := some 5 }] ∧
    ¬ ("/a" ∈ splitComma "/b") := by
  exact ⟨by decide, by decide⟩

/-- C5 amended: `peer_add` does not merge — an existing entry for the
principal is overwritten in place with exactly the supplied address and
alias and a fresh `lastSeen`; absent any entry the peer is appended; other
principals are untouched, the book is saved, and the reply carries the
stored entry. -/
theorem peer_add_replaces_entry (env : DaemonEnv) (k : Nat) (principal address : String)
    (aliasArg : Option String) (st : DaemonState) :
    (handleIpcCommand env k (IpcCommand.peerAdd principal address aliasArg) st).fst.peers =
      peerAddBook st.peers { principal := principal, address := some address,
                             aliasP := aliasArg, lastSeen := some env.now } ∧
    findPeer (handleIpcCommand env k
        (IpcCommand.peerAdd principal address aliasArg) st).fst.peers principal =
      some { principal := principal, address := some address, aliasP := aliasArg,
             lastSeen := some env.now } ∧
    (∀ pr, pr ≠ principal →
      findPeer (handleIpcCommand env k
          (IpcCommand.peerAdd principal address aliasArg) st).fst.peers pr =
        findPeer st.peers pr) ∧
    (handleIpcCommand env k (IpcCommand.peerAdd principal address aliasArg) st).fst.diskPeers =
      (handleIpcCommand env k (IpcCommand.peerAdd principal address aliasArg) st).fst.peers ∧
    (handleIpcCommand env k (IpcCommand.peerAdd principal address aliasArg) st).snd.snd =
      okData (IpcData.peerSaved { principal := principal, address := some address,
                                  aliasP := aliasArg, lastSeen := some env.now }) := by
  have hb : (handleIpcCommand env k (IpcCommand.peerAdd principal address aliasArg) st).fst.peers =
      peerAddBook st.peers { principal := principal, address := some address,
                             aliasP := aliasArg, lastSeen := some env.now } := rfl
  refine ⟨rfl, ?_, ?_, rfl, rfl⟩
  · rw [hb, peerAddBook_eq_rec]
    exact findPeer_peerAddRec_self st.peers _
  · intro pr hpr
    rw [hb, peerAddBook_eq_rec]
    exact findPeer_peerAddRec_other st.peers _ pr hpr

/-- C5 witness: the amended statement at the counterexample's input. -/
theorem peer_add_replaces_entry_witness :
    findPeer (handleIpcCommand env0 0 (IpcCommand.peerAdd "local:p" "/b" none)
        { st0 with peers := [{ principal := "local:p", address := some "/a",
                               aliasP := none, lastSeen := some 1 }] }).fst.peers "local:p" =
      some { principal := "local:p", address := some "/b", aliasP := none,
             lastSeen := some 5 } :=
  (peer_add_replaces_entry env0 0 "local:p" "/b" none
    { st0 with peers := [{ principal := "local:p", address := some "/a",
                           aliasP := none, lastSeen := some 1 }] }).2.1

/-- C10: `peer_remove` deletes exactly the entries with the given
principal, keeps the others in order (the result is a sublist), replies
`{ok:true}` whether or not an entry existed, saves the book, and is
idempotent: a second identical call leaves the whole daemon state
untouched. -/
theorem peer_remove_spec (env : DaemonEnv) (k : Nat) (p : String) (st : DaemonState) :
    (handleIpcCommand env k (IpcCommand.peerRemove p) st).snd.snd =
      CmdResult.resp { ok := true, data := none, error := none } ∧
    (∀ q, q ∈ (handleIpcCommand env k (IpcCommand.peerRemove p) st).fst.peers ↔
      (q ∈ st.peers ∧ q.principal ≠ p)) ∧
    (handleIpcCommand env k (IpcCommand.peerRemove p) st).fst.peers.Sublist st.peers ∧
    (handleIpcCommand env k (IpcCommand.peerRemove p) st).fst.diskPeers =
      (handleIpcCommand env k (IpcCommand.peerRemove p) st).fst.peers ∧
    (handleIpcCommand env k (IpcCommand.peerRemove p)
        (handleIpcCommand env k (IpcCommand.peerRemove p) st).fst).fst =
      (handleIpcCommand env k (IpcCommand.peerRemove p) st).fst ∧
    (handleIpcCommand env k (IpcCommand.peerRemove p) st).fst.inbox = st.inbox ∧
    (handleIpcCommand env k (IpcCommand.peerRemove p) st).fst.outbox = st.outbox := by
  refine ⟨rfl, ?_, ?_, rfl, ?_, rfl, rfl⟩
  · intro q
    simp [handleIpcCommand, List.mem_filter]
  · exact List.filter_sublist st.peers
  · have hf : (st.peers.filter (fun q => decide (q.principal ≠ p))).filter
        (fun q => decide (q.principal ≠ p)) =
        st.peers.filter (fun q => decide (q.principal ≠ p)) := by
      rw [List.filter_filter]
      simp
    simp only [handleIpcCommand, hf]

/-! ## C8: recv and its long-poll union -/

theorem upsertById_mem (acc : List Message) (m x : Message)
    (hx : x ∈ upsertById acc m) : x ∈ acc ∨ x = m := by
  unfold upsertById at hx
  by_cases h : acc.any (fun y => decide (y.id = m.id))
  · rw [if_pos h] at hx
    obtain ⟨y, hy, hyx⟩ := List.mem_map.mp hx
    by_cases hid : y.id = m.id
    · rw [if_pos hid] at hyx
      exact Or.inr hyx.symm
    · rw [if_neg hid] at hyx
      exact Or.inl (hyx ▸ hy)
  · rw [if_neg h] at hx
    rcases List.mem_append.mp hx with h1 | h1
    · exact Or.inl h1
    · exact Or.inr (List.mem_singleton.mp h1)

theorem upsertById_ids_eq (acc : List Message) (m : Message) :
    (upsertById acc m).map (fun x => x.id) =
      if m.id ∈ acc.map (fun x => x.id) then acc.map (fun x => x.id)
      else acc.map (fun x => x.id) ++ [m.id] := by
  have hany : (acc.any (fun y => decide (y.id = m.id)) = true) ↔
      m.id ∈ acc.map (fun x => x.id) := by
    constructor
    · intro h
      obtain ⟨y, hy, hid⟩ := List.any_eq_true.mp h
      exact List.mem_map.mpr ⟨y, hy, of_decide_eq_true hid⟩
    · intro h
      obtain ⟨y, hy, hid⟩ := List.mem_map.mp h
      exact List.any_eq_true.mpr ⟨y, hy, decide_eq_true hid⟩
  unfold upsertById
  by_cases h : acc.any (fun y => decide (y.id = m.id))
  · rw [if_pos h, if_pos (hany.mp h), List.map_map]
    refine List.map_congr_left ?_
    intro x _
    by_cases hid : x.id = m.id
    · simp [hid]
    · simp [hid]
  · rw [if_neg h, if_neg (fun hc => h (hany.mpr hc))]
    simp

theorem upsertById_ids_nodup (acc : List Message) (m : Message)
    (h : (acc.map (fun x => x.id)).Nodup) :
    ((upsertById acc m).map (fun x => x.id)).Nodup := by
  rw [upsertById_ids_eq]
  by_cases hm : m.id ∈ acc.map (fun x => x.id)
  · rw [if_pos hm]
    exact h
  · rw [if_neg hm]
    refine List.Nodup.append h (List.nodup_singleton _) ?_
    intro a ha hb
    exact hm (by rwa [List.mem_singleton.mp hb] at ha)

theorem foldl_upsertById_mem (ms : List Message) :
    ∀ (acc : List Message) (x : Message),
      x ∈ ms.foldl upsertById acc → x ∈ acc ∨ x ∈ ms := by
  induction ms with
  | nil => intro acc x hx; exact Or.inl hx
  | cons m rest ih =>
    intro acc x hx
    rcases ih (upsertById acc m) x hx with h1 | h1
    · rcases upsertById_mem acc m x h1 with h2 | h2
      · exact Or.inl h2
      · exact Or.inr (h2 ▸ List.mem_cons_self m rest)
    · exact Or.inr (List.mem_cons_of_mem m h1)

theorem upsertById_ids_mem (acc : List Message) (m : Message) (a : String) :
    a ∈ (upsertById acc m).map (fun x => x.id) ↔
      (a ∈ acc.map (fun x => x.id) ∨ a = m.id) := by
  rw [upsertById_ids_eq]
  by_cases hm : m.id ∈ acc.map (fun x => x.id)
  · rw [if_pos hm]
    constructor
    · exact Or.inl
    · rintro (h | h)
      · exact h
      · exact h ▸ hm
  · rw [if_neg hm]
    rw [List.mem_append, List.mem_singleton]

theorem foldl_upsertById_ids (ms : List Message) :
    ∀ (acc : List Message) (a : String),
      a ∈ (ms.foldl upsertById acc).map (fun x => x.id) ↔
        (a ∈ acc.map (fun x => x.id) ∨ a ∈ ms.map (fun x => x.id)) := by
  induction ms with
  | nil => intro acc a; simp
  | cons m rest ih =>
    intro acc a
    rw [List.foldl_cons, ih (upsertById acc m) a, upsertById_ids_mem,
      List.map_cons, List.mem_cons]
    tauto

theorem foldl_upsertById_nodup (ms : List Message) :
    ∀ acc : List Message, (acc.map (fun x => x.id)).Nodup →
      ((ms.foldl upsertById acc).map (fun x => x.id)).Nodup := by
  induction ms with
  | nil => intro acc h; exact h
  | cons m rest ih =>
    intro acc h
    exact ih (upsertById acc m) (upsertById_ids_nodup acc m h)

theorem dedupeById_mem (ms : List Message) (x : Message) (hx : x ∈ dedupeById ms) :
    x ∈ ms := by
  rcases foldl_upsertById_mem ms [] x hx with h | h
  · cases h
  · exact h

theorem dedupeById_ids (ms : List Message) (a : String) :
    a ∈ (dedupeById ms).map (fun x => x.id) ↔ a ∈ ms.map (fun x => x.id) := by
  rw [dedupeById, foldl_upsertById_ids]
  simp

theorem dedupeById_nodup (ms : List Message) :
    ((dedupeById ms).map (fun x => x.id)).Nodup :=
  foldl_upsertById_nodup ms [] (by simp)

/-- C8: the `recv` command leaves the daemon state unchanged; with no
timeout (or one that is not positive) it answers exactly the inbox
messages with timestamp strictly greater than `since` (`since` defaulting
to 0); with a positive timeout it answers the union of the messages
present at call time and those delivered during the wait, filtered the
same way and deduplicated by message id — every answered message is from
that union and after `since`, every such message has a representative with
its id in the answer, and no two answered messages share an id. -/
theorem recv_returns_filtered_union (env : DaemonEnv) (k : Nat) (st : DaemonState)
    (since timeout : Option Int) :
    (handleIpcCommand env k (IpcCommand.recv since timeout) st).fst = st ∧
    (timeout.getD 0 ≤ 0 →
      (handleIpcCommand env k (IpcCommand.recv since timeout) st).snd.snd =
        okData (IpcData.messages
          (st.inbox.filter (fun m => m.timestamp > since.getD 0)))) ∧
    (∀ m, m ∈ st.inbox.filter (fun m => m.timestamp > since.getD 0) ↔
      (m ∈ st.inbox ∧ m.timestamp > since.getD 0)) ∧
    (0 < timeout.getD 0 →
      (handleIpcCommand env k (IpcCommand.recv since timeout) st).snd.snd =
        okData (IpcData.messages (recvWithTimeout (since.getD 0) st.inbox env.arrivals))) ∧
    (∀ m, m ∈ recvWithTimeout (since.getD 0) st.inbox env.arrivals →
      (m.timestamp > since.getD 0 ∧ (m ∈ st.inbox ∨ m ∈ env.arrivals))) ∧
    (∀ m, (m ∈ st.inbox ∨ m ∈ env.arrivals) → m.timestamp > since.getD 0 →
      m.id ∈ (recvWithTimeout (since.getD 0) st.inbox env.arrivals).map (fun x => x.id)) ∧
    ((recvWithTimeout (since.getD 0) st.inbox env.arrivals).map (fun x => x.id)).Nodup := by
  refine ⟨?_, ?_, ?_, ?_, ?_, ?_, dedupeById_nodup _⟩
  · by_cases h : timeout.getD 0 ≤ 0 <;> simp [handleIpcCommand, h]
  · intro h
    simp [handleIpcCommand, h]
  · intro m
    simp [List.mem_filter]
  · intro h
    have h2 : ¬ timeout.getD 0 ≤ 0 := by omega
    simp [handleIpcCommand, h2]
  · intro m hm
    have h1 := dedupeById_mem _ m hm
    rcases List.mem_append.mp h1 with h2 | h2 <;>
      rcases List.mem_filter.mp h2 with ⟨hmem, hts⟩
    · exact ⟨by simpa using hts, Or.inl hmem⟩
    · exact ⟨by simpa using hts, Or.inr hmem⟩
  · intro m hmem hts
    rw [recvWithTimeout, dedupeById_ids]
    rcases hmem with h | h
    · refine List.mem_map.mpr ⟨m, ?_, rfl⟩
      exact List.mem_append.mpr (Or.inl (List.mem_filter.mpr ⟨h, by simpa using hts⟩))
    · refine List.mem_map.mpr ⟨m, ?_, rfl⟩
      exact List.mem_append.mpr (Or.inr (List.mem_filter.mpr ⟨h, by simpa using hts⟩))

/-! ## C4: the delivery engine only moves pending entries to sent -/

theorem markSent_outbox (st : DaemonState) (idx : Nat) (m : Message)
    (hm : st.outbox[idx]? = some m) :
    (markSent st idx).outbox = st.outbox.set idx { m with status := MsgStatus.sent } ∧
    (markSent st idx).diskOutbox = (markSent st idx).outbox := by
  unfold markSent
  rw [hm]
  exact ⟨rfl, rfl⟩

theorem deliverAddrLoop_cases (env : DaemonEnv) (idx : Nat) (toP : String)
    (addrs : List String) (m : Message) :
    ∀ (st : DaemonState) (k : Nat), st.outbox[idx]? = some m →
      ((deliverAddrLoop env idx toP addrs st k).fst.outbox = st.outbox ∧
       (deliverAddrLoop env idx toP addrs st k).fst.diskOutbox = st.diskOutbox ∧
       (deliverAddrLoop env idx toP addrs st k).snd.snd = false) ∨
      ((deliverAddrLoop env idx toP addrs st k).snd.snd = true ∧
       (deliverAddrLoop env idx toP addrs st k).fst.outbox =
         st.outbox.set idx { m with status := MsgStatus.sent } ∧
       (deliverAddrLoop env idx toP addrs st k).fst.diskOutbox =
         (deliverAddrLoop env idx toP addrs st k).fst.outbox) := by
  induction addrs with
  | nil =>
    intro st k _
    exact Or.inl ⟨rfl, rfl, rfl⟩
  | cons a rest ih =>
    intro st k hm
    cases hc : env.connectOk k with
    | false =>
      have heq : deliverAddrLoop env idx toP (a :: rest) st k =
          deliverAddrLoop env idx toP rest st (k + 1) := by
        simp [deliverAddrLoop, tryConnect, hc]
      rw [heq]
      exact ih st (k + 1) hm
    | true =>
      cases hls : lookupSession (env.sessionsAfterConnect k) toP with
      | none =>
        have heq : deliverAddrLoop env idx toP (a :: rest) st k =
            deliverAddrLoop env idx toP rest
              { st with sessions := env.sessionsAfterConnect k } (k + 1) := by
          simp [deliverAddrLoop, tryConnect, hc, hls]
        rw [heq]
        exact ih { st with sessions := env.sessionsAfterConnect k } (k + 1) hm
      | some s =>
        cases ha : s.isAuthenticated with
        | false =>
          have heq : deliverAddrLoop env idx toP (a :: rest) st k =
              deliverAddrLoop env idx toP rest
                { st with sessions := env.sessionsAfterConnect k } (k + 1) := by
            simp [deliverAddrLoop, tryConnect, hc, hls, ha]
          rw [heq]
          exact ih { st with sessions := env.sessionsAfterConnect k } (k + 1) hm
        | true =>
          cases hs : env.sendOk (k + 1) with
          | false =>
            have heq : deliverAddrLoop env idx toP (a :: rest) st k =
                deliverAddrLoop env idx toP rest
                  { st with sessions := env.sessionsAfterConnect k } (k + 1 + 1) := by
              simp [deliverAddrLoop, tryConnect, hc, hls, ha, hs]
            rw [heq]
            exact ih { st with sessions := env.sessionsAfterConnect k } (k + 1 + 1) hm
          | true =>
            have heq : deliverAddrLoop env idx toP (a :: rest) st k =
                (markSent { st with sessions := env.sessionsAfterConnect k } idx,
                  k + 1 + 1, true) := by
              simp [deliverAddrLoop, tryConnect, hc, hls, ha, hs]
            rw [heq]
            have hms := markSent_outbox { st with sessions := env.sessionsAfterConnect k }
              idx m hm
            exact Or.inr ⟨rfl, hms.1, hms.2⟩

theorem deliverResolveLoop_cases (env : DaemonEnv) (idx : Nat) (toP : String)
    (sess : List (String × SessionInfo)) (m : Message) :
    ∀ (st : DaemonState) (k : Nat), st.outbox[idx]? = some m →
      ((deliverResolveLoop env idx toP sess st k).fst.outbox = st.outbox ∧
       (deliverResolveLoop env idx toP sess st k).fst.diskOutbox = st.diskOutbox ∧
       (deliverResolveLoop env idx toP sess st k).snd.snd ≠ Except.ok true) ∨
      ((deliverResolveLoop env idx toP sess st k).snd.snd = Except.ok true ∧
       (deliverResolveLoop env idx toP sess st k).fst.outbox =
         st.outbox.set idx { m with status := MsgStatus.sent } ∧
       (deliverResolveLoop env idx toP sess st k).fst.diskOutbox =
         (deliverResolveLoop env idx toP sess st k).fst.outbox) := by
  induction sess with
  | nil =>
    intro st k _
    exact Or.inl ⟨rfl, rfl, by simp [deliverResolveLoop]⟩
  | cons e rest ih =>
    intro st k hm
    rcases e with ⟨pr, cs⟩
    cases hpid : cs.peerId with
    | none =>
      have heq : deliverResolveLoop env idx toP ((pr, cs) :: rest) st k =
          deliverResolveLoop env idx toP rest st k := by
        simp [deliverResolveLoop, hpid]
      rw [heq]
      exact ih st k hm
    | some pid =>
      cases hres : env.resolveOutcome k with
      | error e2 =>
        have heq : deliverResolveLoop env idx toP ((pr, cs) :: rest) st k =
            (st, k + 1, Except.error e2) := by
          simp [deliverResolveLoop, hpid, hres]
        rw [heq]
        exact Or.inl ⟨rfl, rfl, by simp⟩
      | ok r =>
        cases r with
        | none =>
          have heq : deliverResolveLoop env idx toP ((pr, cs) :: rest) st k =
              deliverResolveLoop env idx toP rest st (k + 1) := by
            simp [deliverResolveLoop, hpid, hres]
          rw [heq]
          exact ih st (k + 1) hm
        | some rp =>
          by_cases hlen : rp.multiaddrs.length > 0
          case neg =>
            have heq : deliverResolveLoop env idx toP ((pr, cs) :: rest) st k =
                deliverResolveLoop env idx toP rest st (k + 1) := by
              simp [deliverResolveLoop, hpid, hres, hlen]
            rw [heq]
            exact ih st (k + 1) hm
          case pos =>
            rcases deliverAddrLoop_cases env idx toP rp.multiaddrs m st (k + 1) hm with
              ⟨ho, hd, hf⟩ | ⟨hf, ho, hd⟩
            · have heq : deliverResolveLoop env idx toP ((pr, cs) :: rest) st k =
                  deliverResolveLoop env idx toP rest
                    (deliverAddrLoop env idx toP rp.multiaddrs st (k + 1)).fst
                    (deliverAddrLoop env idx toP rp.multiaddrs st (k + 1)).snd.fst := by
                simp [deliverResolveLoop, hpid, hres, hlen, hf]
              rw [heq]
              have := ih (deliverAddrLoop env idx toP rp.multiaddrs st (k + 1)).fst
                (deliverAddrLoop env idx toP rp.multiaddrs st (k + 1)).snd.fst
                (by rw [ho]; exact hm)
              rw [ho, hd] at this
              exact this
            · have heq : deliverResolveLoop env idx toP ((pr, cs) :: rest) st k =
                  ((deliverAddrLoop env idx toP rp.multiaddrs st (k + 1)).fst,
                   (deliverAddrLoop env idx toP rp.multiaddrs st (k + 1)).snd.fst,
                   Except.ok true) := by
                simp [deliverResolveLoop, hpid, hres, hlen, hf]
              rw [heq]
              exact Or.inr ⟨rfl, ho, hd⟩

theorem tryDeliverRest_cases (env : DaemonEnv) (k : Nat) (idx : Nat) (toP : String)
    (st : DaemonState) (m : Message) (hm : st.outbox[idx]? = some m) :
    ((tryDeliverRest env k idx toP st).fst.outbox = st.outbox ∧
     (tryDeliverRest env k idx toP st).fst.diskOutbox = st.diskOutbox ∧
     (tryDeliverRest env k idx toP st).snd.snd ≠ Except.ok true) ∨
    ((tryDeliverRest env k idx toP st).snd.snd = Except.ok true ∧
     (tryDeliverRest env k idx toP st).fst.outbox =
       st.outbox.set idx { m with status := MsgStatus.sent } ∧
     (tryDeliverRest env k idx toP st).fst.diskOutbox =
       (tryDeliverRest env k idx toP st).fst.outbox) := by
  cases haddr : (st.peers.find? (fun p => p.principal = toP)).bind (fun p => p.address) with
  | none =>
    cases hsess : st.sessions with
    | nil =>
      have heq : tryDeliverRest env k idx toP st = (st, k, Except.ok false) := by
        simp [tryDeliverRest, haddr, hsess]
      rw [heq]
      exact Or.inl ⟨rfl, rfl, by simp⟩
    | cons s0 srest =>
      have heq : tryDeliverRest env k idx toP st =
          deliverResolveLoop env idx toP st.sessions st k := by
        simp [tryDeliverRest, haddr, hsess]
      rw [heq]
      exact deliverResolveLoop_cases env idx toP st.sessions m st k hm
  | some a =>
    by_cases hemp : a = ""
    · cases hsess : st.sessions with
      | nil =>
        have heq : tryDeliverRest env k idx toP st = (st, k, Except.ok false) := by
          simp [tryDeliverRest, haddr, hemp, hsess]
        rw [heq]
        exact Or.inl ⟨rfl, rfl, by simp⟩
      | cons s0 srest =>
        have heq : tryDeliverRest env k idx toP st =
            deliverResolveLoop env idx toP st.sessions st k := by
          simp [tryDeliverRest, haddr, hemp, hsess]
        rw [heq]
        exact deliverResolveLoop_cases env idx toP st.sessions m st k hm
    · have heq : tryDeliverRest env k idx toP st =
          ((deliverAddrLoop env idx toP ((splitComma a).map jsTrim) st k).fst,
           (deliverAddrLoop env idx toP ((splitComma a).map jsTrim) st k).snd.fst,
           Except.ok (deliverAddrLoop env idx toP ((splitComma a).map jsTrim) st k).snd.snd) := by
        simp [tryDeliverRest, haddr, hemp]
      rw [heq]
      rcases deliverAddrLoop_cases env idx toP ((splitComma a).map jsTrim) m st k hm with
        ⟨ho, hd, hf⟩ | ⟨hf, ho, hd⟩
      · exact Or.inl ⟨ho, hd, by simp [hf]⟩
      · exact Or.inr ⟨by simp [hf], ho, hd⟩

/-- Outbox effect of one `tryDeliver` call: either nothing observable
happened to the outbox (and the call did not report success), or the call
reported success and the one entry moved to `sent` with the outbox saved. -/
theorem tryDeliver_outbox_cases (env : DaemonEnv) (k : Nat) (idx : Nat) (st : DaemonState) :
    ((tryDeliver env k idx st).fst.outbox = st.outbox ∧
     (tryDeliver env k idx st).fst.diskOutbox = st.diskOutbox ∧
     (tryDeliver env k idx st).snd.snd ≠ Except.ok true) ∨
    (∃ m, st.outbox[idx]? = some m ∧
      (tryDeliver env k idx st).snd.snd = Except.ok true ∧
      (tryDeliver env k idx st).fst.outbox =
        st.outbox.set idx { m with status := MsgStatus.sent } ∧
      (tryDeliver env k idx st).fst.diskOutbox = (tryDeliver env k idx st).fst.outbox) := by
  cases hm : st.outbox[idx]? with
  | none =>
    have heq : tryDeliver env k idx st = (st, k, Except.ok false) := by
      simp [tryDeliver, hm]
    rw [heq]
    exact Or.inl ⟨rfl, rfl, by simp⟩
  | some msg =>
    cases hls : lookupSession st.sessions msg.toP with
    | none =>
      have heq : tryDeliver env k idx st = tryDeliverRest env k idx msg.toP st := by
        simp [tryDeliver, hm, hls]
      rw [heq]
      rcases tryDeliverRest_cases env k idx msg.toP st msg hm with
        ⟨ho, hd, hf⟩ | ⟨hf, ho, hd⟩
      · exact Or.inl ⟨ho, hd, hf⟩
      · exact Or.inr ⟨msg, rfl, hf, ho, hd⟩
    | some s =>
      cases ha : s.isAuthenticated with
      | false =>
        have heq : tryDeliver env k idx st = tryDeliverRest env k idx msg.toP st := by
          simp [tryDeliver, hm, hls, ha]
        rw [heq]
        rcases tryDeliverRest_cases env k idx msg.toP st msg hm with
          ⟨ho, hd, hf⟩ | ⟨hf, ho, hd⟩
        · exact Or.inl ⟨ho, hd, hf⟩
        · exact Or.inr ⟨msg, rfl, hf, ho, hd⟩
      | true =>
        cases hs : env.sendOk k with
        | true =>
          have heq : tryDeliver env k idx st = (markSent st idx, k + 1, Except.ok true) := by
            simp [tryDeliver, hm, hls, ha, hs]
          rw [heq]
          have hms := markSent_outbox st idx msg hm
          exact Or.inr ⟨msg, rfl, rfl, hms.1, hms.2⟩
        | false =>
          have heq : tryDeliver env k idx st = tryDeliverRest env (k + 1) idx msg.toP
              { st with sessions := deleteSession st.sessions msg.toP } := by
            simp [tryDeliver, hm, hls, ha, hs]
          rw [heq]
          rcases tryDeliverRest_cases env (k + 1) idx msg.toP
              { st with sessions := deleteSession st.sessions msg.toP } msg hm with
            ⟨ho, hd, hf⟩ | ⟨hf, ho, hd⟩
          · exact Or.inl ⟨ho, hd, hf⟩
          · exact Or.inr ⟨msg, rfl, hf, ho, hd⟩

theorem mem_pendingIdxs (ms : List Message) (j : Nat) :
    j ∈ pendingIdxs ms ↔ ∃ mj, ms[j]? = some mj ∧ mj.status = MsgStatus.pending := by
  unfold pendingIdxs
  rw [List.mem_filter, List.mem_range]
  constructor
  · rintro ⟨hj, hp⟩
    cases hmj : ms[j]? with
    | none => rw [hmj] at hp; exact absurd hp (by simp)
    | some mj =>
      rw [hmj] at hp
      exact ⟨mj, rfl, of_decide_eq_true hp⟩
  · rintro ⟨mj, hmj, hp⟩
    have hj : j < ms.length := by
      by_contra hge
      rw [List.getElem?_eq_none (by omega)] at hmj
      cases hmj
    refine ⟨hj, ?_⟩
    rw [hmj]
    exact decide_eq_true hp

theorem processOutboxAux_cases (env : DaemonEnv) (idxs : List Nat) :
    ∀ (st : DaemonState) (k : Nat) (j : Nat),
      ((processOutboxAux env idxs st k).fst.outbox[j]? = st.outbox[j]?) ∨
      (j ∈ idxs ∧ ∃ mj, st.outbox[j]? = some mj ∧
        (processOutboxAux env idxs st k).fst.outbox[j]? =
          some { mj with status := MsgStatus.sent }) := by
  induction idxs with
  | nil =>
    intro st k j
    exact Or.inl rfl
  | cons i rest ih =>
    intro st k j
    rcases htd : tryDeliver env k i st with ⟨st1, k1, r⟩
    have hcases := tryDeliver_outbox_cases env k i st
    rw [htd] at hcases
    cases r with
    | error e =>
      have hout : processOutboxAux env (i :: rest) st k = (st1, k1, some e) := by
        simp [processOutboxAux, htd]
      rw [hout]
      rcases hcases with ⟨ho, _, _⟩ | ⟨m2, _, hne, _⟩
      · exact Or.inl (by rw [ho])
      · cases hne
    | ok b =>
      have hout : processOutboxAux env (i :: rest) st k = processOutboxAux env rest st1 k1 := by
        simp [processOutboxAux, htd]
      rw [hout]
      rcases hcases with ⟨ho, _, _⟩ | ⟨m2, hm2, _, ho, _⟩
      · rcases ih st1 k1 j with h1 | ⟨hjm, mj, hmj, h2⟩
        · exact Or.inl (by rw [h1, ho])
        · rw [ho] at hmj
          exact Or.inr ⟨List.mem_cons_of_mem i hjm, mj, hmj, h2⟩
      · by_cases hij : j = i
        · subst hij
          have hlen : j < st.outbox.length := by
            by_contra hge
            rw [List.getElem?_eq_none (by omega)] at hm2
            cases hm2
          have hstj : st1.outbox[j]? = some { m2 with status := MsgStatus.sent } := by
            rw [ho]
            exact List.getElem?_set_self hlen
          rcases ih st1 k1 j with h1 | ⟨_, mj, hmj, h2⟩
          · exact Or.inr ⟨List.mem_cons_self j rest, m2, hm2, by rw [h1, hstj]⟩
          · rw [hstj] at hmj
            cases hmj
            exact Or.inr ⟨List.mem_cons_self j rest, m2, hm2, h2⟩
        · have hstj : st1.outbox[j]? = st.outbox[j]? := by
            rw [ho]
            exact List.getElem?_set_ne (fun h => hij h.symm)
          rcases ih st1 k1 j with h1 | ⟨hjm, mj, hmj, h2⟩
          · exact Or.inl (by rw [h1, hstj])
          · rw [hstj] at hmj
            exact Or.inr ⟨List.mem_cons_of_mem i hjm, mj, hmj, h2⟩

/-- C4: the delivery engine's effect on an outbox entry.  A failed attempt
(no authenticated session, dial failure, send or resolve error) leaves the
whole outbox unchanged, so the entry stays `pending`; a success is the only
transition and moves the one entry from `pending` to `sent`; no entry is
ever set to `failed`, by one attempt or by the retry loop
(`processOutbox`), which at most moves pending entries to `sent`. -/
theorem delivery_engine_spec (env : DaemonEnv) (k : Nat) (idx : Nat) (st : DaemonState)
    (m : Message) (hm : st.outbox[idx]? = some m) (hp : m.status = MsgStatus.pending) :
    ((tryDeliver env k idx st).snd.snd ≠ Except.ok true →
      (tryDeliver env k idx st).fst.outbox = st.outbox) ∧
    ((tryDeliver env k idx st).snd.snd = Except.ok true →
      (tryDeliver env k idx st).fst.outbox =
        st.outbox.set idx { m with status := MsgStatus.sent }) ∧
    (∀ (j : Nat) (mj m0 : Message), st.outbox[j]? = some m0 → m0.status ≠ MsgStatus.failed →
      (tryDeliver env k idx st).fst.outbox[j]? = some mj →
      mj.status ≠ MsgStatus.failed) ∧
    (∀ j : Nat, ((processOutbox env k st).fst.outbox[j]? = st.outbox[j]?) ∨
      (∃ mj : Message, st.outbox[j]? = some mj ∧ mj.status = MsgStatus.pending ∧
        (processOutbox env k st).fst.outbox[j]? =
          some { mj with status := MsgStatus.sent })) := by
  refine ⟨?_, ?_, ?_, ?_⟩
  · intro hne
    rcases tryDeliver_outbox_cases env k idx st with ⟨ho, _, _⟩ | ⟨m2, _, hok, _, _⟩
    · exact ho
    · exact absurd hok hne
  · intro hok
    rcases tryDeliver_outbox_cases env k idx st with ⟨_, _, hne⟩ | ⟨m2, hm2, _, ho, _⟩
    · exact absurd hok hne
    · rw [hm2] at hm
      cases hm
      exact ho
  · intro j mj m0 hm0 hnf hmj
    rcases tryDeliver_outbox_cases env k idx st with ⟨ho, _, _⟩ | ⟨m2, hm2, _, ho, _⟩
    · rw [ho, hm0] at hmj
      cases hmj
      exact hnf
    · rw [ho] at hmj
      by_cases hij : j = idx
      · subst hij
        have hlen : j < st.outbox.length := by
          by_contra hge
          rw [List.getElem?_eq_none (by omega)] at hm2
          cases hm2
        rw [List.getElem?_set_self hlen] at hmj
        cases hmj
        simp
      · rw [List.getElem?_set_ne (fun h => hij h.symm), hm0] at hmj
        cases hmj
        exact hnf
  · intro j
    rcases processOutboxAux_cases env (pendingIdxs st.outbox) st k j with h1 | ⟨hjm, mj, hmj, h2⟩
    · exact Or.inl h1
    · obtain ⟨mj2, hmj2, hp2⟩ := (mem_pendingIdxs st.outbox j).mp hjm
      rw [hmj] at hmj2
      cases hmj2
      exact Or.inr ⟨mj, hmj, hp2, h2⟩

/-- Pending outbox entry used by concrete delivery scenarios. -/
def msgPend : Message :=
  { id := "q1", fromP := "local:me", fromNick := none, toP := "local:peer",
    content := "x", timestamp := 2, status := MsgStatus.pending }

/-- Daemon state holding one pending outbox entry. -/
def stPend : DaemonState := { st0 with outbox := [msgPend], diskOutbox := [msgPend] }

/-- C4 witness: in the quiet environment the attempt fails and the pending
entry is untouched. -/
theorem delivery_engine_spec_witness :
    (tryDeliver env0 0 0 stPend).fst.outbox = stPend.outbox :=
  (delivery_engine_spec env0 0 0 stPend msgPend (by decide) (by decide)).1 (by decide)

/-! ## C7: the send command -/

theorem hexVal_hexDigitChar : ∀ n : Nat, n < 16 → hexVal (hexDigitChar n) = some n := by
  decide

theorem hexOfBytes_cons (b : Nat) (t : List Nat) :
    (hexOfBytes (b :: t)).data =
      hexDigitChar ((b / 16) % 16) :: hexDigitChar (b % 16) :: (hexOfBytes t).data := rfl

theorem hexOfBytes_length (bs : List Nat) : (hexOfBytes bs).length = 2 * bs.length := by
  induction bs with
  | nil => rfl
  | cons b t ih =>
    show (hexOfBytes (b :: t)).data.length = 2 * (b :: t).length
    rw [hexOfBytes_cons]
    have iht : (hexOfBytes t).data.length = 2 * t.length := ih
    simp only [List.length_cons, iht]
    omega

theorem hexOfBytes_chars (bs : List Nat) :
    ∀ c ∈ (hexOfBytes bs).data, (hexVal c).isSome := by
  induction bs with
  | nil => intro c hc; cases hc
  | cons b t ih =>
    intro c hc
    rw [hexOfBytes_cons] at hc
    rcases List.mem_cons.mp hc with h1 | h1
    · rw [h1, hexVal_hexDigitChar _ (Nat.mod_lt _ (by omega))]
      rfl
    · rcases List.mem_cons.mp h1 with h2 | h2
      · rw [h2, hexVal_hexDigitChar _ (Nat.mod_lt _ (by omega))]
        rfl
      · exact ih c h2

/-- C7 amended: every `send` IPC command appends exactly one record to the
outbox — its id the 32-character lowercase hex of 16 fresh random bytes,
its sender the daemon principal, status `pending` at append time — saves
the outbox, leaves the earlier entries untouched, then attempts immediate
delivery (after which the new entry is `pending` or `sent`), and responds
`{ok:true, data:{id, status:'queued'}}` unless the delivery attempt throws,
in which case the caught rejection is reported as `{ok:false,error}` while
the record stays queued. -/
theorem send_queues_message (env : DaemonEnv) (k : Nat) (toP content : String)
    (st : DaemonState) (h16 : env.rand16.length = 16) :
    (hexOfBytes env.rand16).length = 32 ∧
    (∀ c ∈ (hexOfBytes env.rand16).data, (hexVal c).isSome) ∧
    (handleIpcCommand env k (IpcCommand.send toP content) st).fst.outbox.length =
      st.outbox.length + 1 ∧
    (∀ j : Nat, j < st.outbox.length →
      (handleIpcCommand env k (IpcCommand.send toP content) st).fst.outbox[j]? =
        st.outbox[j]?) ∧
    (∃ ms : Message,
      (handleIpcCommand env k (IpcCommand.send toP content) st).fst.outbox[st.outbox.length]? =
        some ms ∧
      ms.id = hexOfBytes env.rand16 ∧ ms.fromP = st.principal ∧ ms.toP = toP ∧
      ms.content = content ∧ ms.timestamp = env.now ∧
      (ms.status = MsgStatus.pending ∨ ms.status = MsgStatus.sent)) ∧
    (handleIpcCommand env k (IpcCommand.send toP content) st).fst.diskOutbox =
      (handleIpcCommand env k (IpcCommand.send toP content) st).fst.outbox ∧
    ((handleIpcCommand env k (IpcCommand.send toP content) st).snd.snd =
        okData (IpcData.sendQueued (hexOfBytes env.rand16)) ∨
      ∃ e, (handleIpcCommand env k (IpcCommand.send toP content) st).snd.snd =
        CmdResult.thrown e) := by
  have hq : (st.outbox ++ [queuedOf env st toP content])[st.outbox.length]? =
      some (queuedOf env st toP content) := List.getElem?_concat_length _ _
  have hcases := tryDeliver_outbox_cases env k st.outbox.length
    { st with outbox := st.outbox ++ [queuedOf env st toP content],
              diskOutbox := st.outbox ++ [queuedOf env st toP content] }
  rcases htd : tryDeliver env k st.outbox.length
      { st with outbox := st.outbox ++ [queuedOf env st toP content],
                diskOutbox := st.outbox ++ [queuedOf env st toP content] } with ⟨st2, k2, r⟩
  rw [htd] at hcases
  have hmain : handleIpcCommand env k (IpcCommand.send toP content) st =
      (match r with
        | Except.ok _ => (st2, k2, okData (IpcData.sendQueued (hexOfBytes env.rand16)))
        | Except.error e => (st2, k2, CmdResult.thrown e)) := by
    cases r <;> simp [handleIpcCommand, handleSend, htd]
  have houtbox : st2.outbox = st.outbox ++ [queuedOf env st toP content] ∨
      st2.outbox = (st.outbox ++ [queuedOf env st toP content]).set st.outbox.length
        { queuedOf env st toP content with status := MsgStatus.sent } := by
    rcases hcases with ⟨ho, _, _⟩ | ⟨m2, hm2, _, ho, _⟩
    · exact Or.inl ho
    · have hm2b : (st.outbox ++ [queuedOf env st toP content])[st.outbox.length]? =
          some m2 := hm2
      rw [hq] at hm2b
      cases hm2b
      exact Or.inr ho
  have hdisk : st2.diskOutbox = st2.outbox := by
    rcases hcases with ⟨ho, hd, _⟩ | ⟨m2, _, _, ho, hd⟩
    · rw [ho, hd]
    · exact hd
  have hfst : (handleIpcCommand env k (IpcCommand.send toP content) st).fst = st2 := by
    rw [hmain]
    cases r <;> rfl
  refine ⟨?_, hexOfBytes_chars env.rand16, ?_, ?_, ?_, ?_, ?_⟩
  · rw [hexOfBytes_length, h16]
  · rw [hfst]
    rcases houtbox with ho | ho <;> rw [ho] <;> simp
  · intro j hj
    rw [hfst]
    rcases houtbox with ho | ho <;> rw [ho]
    · exact List.getElem?_append_left hj
    · rw [List.getElem?_set_ne (by omega)]
      exact List.getElem?_append_left hj
  · rw [hfst]
    rcases houtbox with ho | ho <;> rw [ho]
    · exact ⟨queuedOf env st toP content, hq, rfl, rfl, rfl, rfl, rfl, Or.inl rfl⟩
    · refine ⟨{ queuedOf env st toP content with status := MsgStatus.sent }, ?_,
        rfl, rfl, rfl, rfl, rfl, Or.inr rfl⟩
      exact List.getElem?_set_self (by simp)
  · rw [hfst, hdisk]
  · rw [hmain]
    cases r with
    | ok b => exact Or.inl rfl
    | error e => exact Or.inr ⟨e, rfl⟩

/-- C7 witness: a concrete send in the quiet environment. -/
theorem send_queues_message_witness :
    (handleIpcCommand env0 0 (IpcCommand.send "local:peer" "hello") st0).fst.outbox.length =
      st0.outbox.length + 1 :=
  (send_queues_message env0 0 "local:peer" "hello" st0 (by decide)).2.2.1

/-- Environment whose PX-1 resolve always rejects; the daemon does not
catch this rejection inside `tryDeliver`. -/
def envBoom : DaemonEnv := { env0 with resolveOutcome := fun _ => Except.error "resolve boom" }

/-- Daemon state with one authenticated relay session and no peer entry
for the recipient, which steers `tryDeliver` into PX-1 resolution. -/
def stRelay : DaemonState :=
  { st0 with sessions := [("local:relay", { isAuthenticated := true, peerId := some "QmRelay" })] }

/-- C7 counterexample: when the immediate delivery attempt throws (a PX-1
resolve rejection), the `send` command does not respond
`{ok:true, data:{id, status:'queued'}}` — the exception escapes the
handler (and the IPC layer then writes `{ok:false,error}`) — even though
the record was already queued to the outbox. -/
theorem send_throw_responds_error :
    (handleIpcCommand envBoom 0 (IpcCommand.send "local:target" "hi") stRelay).snd.snd =
      CmdResult.thrown "resolve boom" ∧
    (handleIpcCommand envBoom 0 (IpcCommand.send "local:target" "hi") stRelay).fst.outbox ≠
      stRelay.outbox := by
  exact ⟨by decide, by decide⟩

/-! ## C9: one response line per request line -/

theorem handleIpcCommand_exits_iff (env : DaemonEnv) (k : Nat) (c : IpcCommand)
    (st : DaemonState) :
    (handleIpcCommand env k c st).snd.snd = CmdResult.exits ↔ c = IpcCommand.stop := by
  constructor
  · intro hx
    cases c with
    | send toP content =>
      rcases htd : tryDeliver env k st.outbox.length
          { st with outbox := st.outbox ++ [queuedOf env st toP content],
                    diskOutbox := st.outbox ++ [queuedOf env st toP content] } with ⟨st2, k2, r⟩
      cases r <;> simp [handleIpcCommand, handleSend, htd, okData] at hx
    | recv since timeout =>
      by_cases ht : timeout.getD 0 ≤ 0 <;> simp [handleIpcCommand, ht, okData] at hx
    | inbox => simp [handleIpcCommand, okData] at hx
    | outbox => simp [handleIpcCommand, okData] at hx
    | peers => simp [handleIpcCommand, okData] at hx
    | peerAdd principal address aliasArg => simp [handleIpcCommand, okData] at hx
    | peerRemove principal => simp [handleIpcCommand, okData] at hx
    | peerResolve principal through =>
      cases through with
      | none => simp [handleIpcCommand, okData] at hx
      | some th =>
        cases hpid : (lookupSession st.sessions th).bind (fun s => s.peerId) with
        | none => simp [handleIpcCommand, hpid, okData] at hx
        | some pid =>
          cases hres : env.resolveOutcome k with
          | error e2 => simp [handleIpcCommand, hpid, hres, okData] at hx
          | ok r2 => simp [handleIpcCommand, hpid, hres, okData] at hx
    | status => simp [handleIpcCommand, okData] at hx
    | multiaddrs => simp [handleIpcCommand, okData] at hx
    | connect ma =>
      cases hcc : env.connectCmd <;> simp [handleIpcCommand, hcc, okData] at hx
    | stop => rfl
  · intro hcs
    rw [hcs]
    rfl

/-- C9 amended: the per-line discipline of `handleIpcConnection`.  A blank
line is skipped.  A line `JSON.parse` rejects yields exactly one
`{ok:false,error}` line with the state untouched.  A parsed command yields
exactly one line — the handler's response, or `{ok:false,error}` when the
handler throws (in which case the handler may already have mutated state,
so "state unchanged" cannot be promised) — except for `stop`, the only
command that exits, which terminates the process before any response is
written. -/
theorem ipc_line_discipline (env : DaemonEnv) (k : Nat) (st : DaemonState) (e : String)
    (c : IpcCommand) :
    handleIpcLine env k IpcLine.blank st = (st, k, [], false) ∧
    handleIpcLine env k (IpcLine.invalid e) st =
      (st, k, [{ ok := false, data := none, error := some e }], false) ∧
    (∀ r : IpcResponse, (handleIpcCommand env k c st).snd.snd = CmdResult.resp r →
      (handleIpcLine env k (IpcLine.cmd c) st).snd.snd.fst = [r]) ∧
    (∀ e2 : String, (handleIpcCommand env k c st).snd.snd = CmdResult.thrown e2 →
      (handleIpcLine env k (IpcLine.cmd c) st).snd.snd.fst =
        [{ ok := false, data := none, error := some e2 }]) ∧
    ((handleIpcCommand env k c st).snd.snd = CmdResult.exits ↔ c = IpcCommand.stop) ∧
    ((handleIpcCommand env k c st).snd.snd = CmdResult.exits →
      (handleIpcLine env k (IpcLine.cmd c) st).snd.snd.fst = []) := by
  refine ⟨rfl, rfl, ?_, ?_, handleIpcCommand_exits_iff env k c st, ?_⟩
  · intro r hr
    rcases hc : handleIpcCommand env k c st with ⟨st1, k1, cr⟩
    rw [hc] at hr
    simp at hr
    subst hr
    simp [handleIpcLine, hc]
  · intro e2 hr
    rcases hc : handleIpcCommand env k c st with ⟨st1, k1, cr⟩
    rw [hc] at hr
    simp at hr
    subst hr
    simp [handleIpcLine, hc]
  · intro hx
    rcases hc : handleIpcCommand env k c st with ⟨st1, k1, cr⟩
    rw [hc] at hx
    simp at hx
    subst hx
    simp [handleIpcLine, hc]

/-- C9 counterexample: a send whose delivery attempt throws is answered
with one `{ok:false,error}` line, but the daemon state did not stay
unchanged — the outbox already holds the queued record; and a `stop` line
produces no response line at all (the process exits first). -/
theorem ipc_throw_mutates_state :
    (handleIpcLine envBoom 0 (IpcLine.cmd (IpcCommand.send "local:target" "hi"))
        stRelay).snd.snd.fst =
      [{ ok := false, data := none, error := some "resolve boom" }] ∧
    (handleIpcLine envBoom 0 (IpcLine.cmd (IpcCommand.send "local:target" "hi"))
        stRelay).fst.outbox ≠ stRelay.outbox ∧
    (handleIpcLine env0 0 (IpcLine.cmd IpcCommand.stop) st0).snd.snd.fst = [] := by
  exact ⟨by decide, by decide, by decide⟩

/-! ## C6: PX-1 merge laws — split/join and dedup lemmas -/

theorem splitCommaL_ne_nil (l : List Char) : splitCommaL l ≠ [] := by
  cases l with
  | nil => simp [splitCommaL]
  | cons c cs =>
    rw [splitCommaL]
    by_cases hc : c = ','
    · simp [hc]
    · simp only [hc, if_false]
      cases splitCommaL cs with
      | nil => simp
      | cons h t => simp

theorem noComma_of_mem_splitCommaL (l : List Char) :
    ∀ p ∈ splitCommaL l, ',' ∉ p := by
  induction l with
  | nil =>
    intro p hp
    rw [splitCommaL] at hp
    rcases List.mem_singleton.mp hp with rfl
    simp
  | cons c cs ih =>
    intro p hp
    rw [splitCommaL] at hp
    by_cases hc : c = ','
    · rw [if_pos hc] at hp
      rcases List.mem_cons.mp hp with rfl | h
      · simp
      · exact ih p h
    · rw [if_neg hc] at hp
      cases hr : splitCommaL cs with
      | nil => exact absurd hr (splitCommaL_ne_nil cs)
      | cons h t =>
        rw [hr] at hp
        rcases List.mem_cons.mp hp with rfl | hmem
        · intro hcm
          rcases List.mem_cons.mp hcm with h1 | h1
          · exact hc h1.symm
          · exact ih h (by rw [hr]; exact List.mem_cons_self h t) h1
        · exact ih p (by rw [hr]; exact List.mem_cons_of_mem h hmem)

theorem splitCommaL_of_noComma (l : List Char) (h : ',' ∉ l) : splitCommaL l = [l] := by
  induction l with
  | nil => rfl
  | cons c cs ih =>
    have hc : c ≠ ',' := fun hc => h (hc ▸ List.mem_cons_self c cs)
    have hcs : ',' ∉ cs := fun hm => h (List.mem_cons_of_mem c hm)
    rw [splitCommaL]
    simp only [hc, if_false]
    rw [ih hcs]

theorem splitCommaL_append (a b : List Char) (h : ',' ∉ a) :
    splitCommaL (a ++ ',' :: b) = a :: splitCommaL b := by
  induction a with
  | nil => simp [splitCommaL]
  | cons c cs ih =>
    have hc : c ≠ ',' := fun hc => h (hc ▸ List.mem_cons_self c cs)
    have hcs : ',' ∉ cs := fun hm => h (List.mem_cons_of_mem c hm)
    rw [List.cons_append, splitCommaL]
    simp only [hc, if_false]
    rw [ih hcs]

theorem splitCommaL_joinCommaL (ls : List (List Char)) (hne : ls ≠ [])
    (h : ∀ x ∈ ls, ',' ∉ x) : splitCommaL (joinCommaL ls) = ls := by
  induction ls with
  | nil => exact absurd rfl hne
  | cons x xs ih =>
    cases xs with
    | nil =>
      rw [joinCommaL]
      exact splitCommaL_of_noComma x (h x (List.mem_cons_self x []))
    | cons y ys =>
      rw [joinCommaL]
      rw [splitCommaL_append x (joinCommaL (y :: ys)) (h x (List.mem_cons_self x _))]
      rw [ih (by simp) (fun z hz => h z (List.mem_cons_of_mem x hz))]

theorem data_joinComma (ls : List String) : (joinComma ls).data = joinCommaL (ls.map String.data) := rfl

theorem splitComma_data (s : String) : splitComma s = (splitCommaL s.data).map String.mk := rfl

theorem mk_data (s : String) : String.mk s.data = s := rfl

theorem splitComma_ne_nil (s : String) : splitComma s ≠ [] := by
  rw [splitComma_data]
  intro h
  exact splitCommaL_ne_nil s.data (List.map_eq_nil_iff.mp h)

theorem noComma_of_mem_splitComma (s : String) :
    ∀ p ∈ splitComma s, ',' ∉ p.data := by
  intro p hp
  rw [splitComma_data] at hp
  obtain ⟨l, hl, rfl⟩ := List.mem_map.mp hp
  exact noComma_of_mem_splitCommaL s.data l hl

theorem splitComma_joinComma (ls : List String) (hne : ls ≠ [])
    (h : ∀ x ∈ ls, ',' ∉ x.data) : splitComma (joinComma ls) = ls := by
  rw [splitComma_data, data_joinComma]
  rw [splitCommaL_joinCommaL (ls.map String.data)
    (fun hl => hne (List.map_eq_nil_iff.mp hl))
    (by intro x hx
        obtain ⟨z, hz, rfl⟩ := List.mem_map.mp hx
        exact h z hz)]
  rw [List.map_map]
  refine List.map_congr_left ?_ |>.trans (List.map_id ls)
  intro x _
  rfl

theorem mem_foldl_dedup (l : List String) :
    ∀ (acc : List String) (x : String),
      x ∈ l.foldl (fun acc x => if x ∈ acc then acc else acc ++ [x]) acc ↔
        (x ∈ acc ∨ x ∈ l) := by
  induction l with
  | nil => intro acc x; simp
  | cons a t ih =>
    intro acc x
    rw [List.foldl_cons, ih]
    by_cases ha : a ∈ acc
    · rw [if_pos ha]
      constructor
      · rintro (h | h)
        · exact Or.inl h
        · exact Or.inr (List.mem_cons_of_mem a h)
      · rintro (h | h)
        · exact Or.inl h
        · rcases List.mem_cons.mp h with rfl | h1
          · exact Or.inl ha
          · exact Or.inr h1
    · rw [if_neg ha]
      constructor
      · rintro (h | h)
        · rcases List.mem_append.mp h with h1 | h1
          · exact Or.inl h1
          · exact Or.inr (List.mem_singleton.mp h1 ▸ List.mem_cons_self a t)
        · exact Or.inr (List.mem_cons_of_mem a h)
      · rintro (h | h)
        · exact Or.inl (List.mem_append.mpr (Or.inl h))
        · rcases List.mem_cons.mp h with rfl | h1
          · exact Or.inl (List.mem_append.mpr (Or.inr (List.mem_singleton.mpr rfl)))
          · exact Or.inr h1

theorem mem_dedupStr (l : List String) (x : String) : x ∈ dedupStr l ↔ x ∈ l := by
  rw [dedupStr, mem_foldl_dedup]
  simp

theorem nodup_foldl_dedup (l : List String) :
    ∀ acc : List String, acc.Nodup →
      (l.foldl (fun acc x => if x ∈ acc then acc else acc ++ [x]) acc).Nodup := by
  induction l with
  | nil => intro acc h; exact h
  | cons a t ih =>
    intro acc h
    rw [List.foldl_cons]
    by_cases ha : a ∈ acc
    · rw [if_pos ha]
      exact ih acc h
    · rw [if_neg ha]
      refine ih (acc ++ [a]) ?_
      refine List.Nodup.append h (List.nodup_singleton a) ?_
      intro x hx hxa
      exact ha (List.mem_singleton.mp hxa ▸ hx)

theorem nodup_dedupStr (l : List String) : (dedupStr l).Nodup :=
  nodup_foldl_dedup l [] List.nodup_nil

theorem dedupStr_ne_nil (l : List String) (h : l ≠ []) : dedupStr l ≠ [] := by
  cases l with
  | nil => exact absurd rfl h
  | cons a t =>
    intro hc
    have : a ∈ dedupStr (a :: t) := (mem_dedupStr _ a).mpr (List.mem_cons_self a t)
    rw [hc] at this
    cases this

theorem foldl_dedup_fixed (v : List String) :
    ∀ acc : List String, (∀ x ∈ v, x ∈ acc) →
      v.foldl (fun acc x => if x ∈ acc then acc else acc ++ [x]) acc = acc := by
  induction v with
  | nil => intro acc _; rfl
  | cons a t ih =>
    intro acc h
    rw [List.foldl_cons, if_pos (h a (List.mem_cons_self a t))]
    exact ih acc (fun x hx => h x (List.mem_cons_of_mem a hx))

theorem dedupStr_eq_self (l : List String) (h : l.Nodup) : dedupStr l = l := by
  induction l using List.reverseRecOn with
  | nil => rfl
  | append_singleton t a ih =>
    rw [dedupStr, List.foldl_append, List.foldl_cons]
    have hnd := List.nodup_append.mp h
    have ht : dedupStr t = t := ih hnd.1
    rw [show t.foldl (fun acc x => if x ∈ acc then acc else acc ++ [x]) [] = dedupStr t from rfl,
      ht]
    have ha : a ∉ t := by
      intro hc
      exact hnd.2.2 hc (List.mem_singleton.mpr rfl)
    rw [if_neg ha]
    rfl

theorem dedupStr_append_absorb (u v : List String) (hu : u.Nodup)
    (hv : ∀ x ∈ v, x ∈ u) : dedupStr (u ++ v) = u := by
  rw [dedupStr, List.foldl_append]
  rw [show u.foldl (fun acc x => if x ∈ acc then acc else acc ++ [x]) [] = dedupStr u from rfl,
    dedupStr_eq_self u hu]
  exact foldl_dedup_fixed v u hv

theorem toFinset_dedupStr_append (a b : List String) :
    (dedupStr (a ++ b)).toFinset = a.toFinset ∪ b.toFinset := by
  ext x
  simp [List.mem_toFinset, mem_dedupStr]

theorem joinCommaL_splitCommaL (l : List Char) : joinCommaL (splitCommaL l) = l := by
  induction l with
  | nil => rfl
  | cons c cs ih =>
    rw [splitCommaL]
    by_cases hc : c = ','
    · rw [if_pos hc]
      cases hr : splitCommaL cs with
      | nil => exact absurd hr (splitCommaL_ne_nil cs)
      | cons h t =>
        rw [joinCommaL]
        rw [← hr, ih, hc]
        rfl
    · rw [if_neg hc]
      cases hr : splitCommaL cs with
      | nil => exact absurd hr (splitCommaL_ne_nil cs)
      | cons h t =>
        cases t with
        | nil =>
          rw [joinCommaL]
          rw [hr] at ih
          rw [joinCommaL] at ih
          rw [ih]
        | cons t0 ts =>
          rw [joinCommaL]
          rw [hr] at ih
          rw [joinCommaL] at ih
          rw [List.cons_append, ih]

theorem joinComma_splitComma (s : String) : joinComma (splitComma s) = s := by
  rw [splitComma_data, joinComma]
  rw [List.map_map]
  have : (splitCommaL s.data).map (String.data ∘ String.mk) = splitCommaL s.data := by
    refine (List.map_congr_left ?_).trans (List.map_id _)
    intro x _
    rfl
  rw [this, joinCommaL_splitCommaL, mk_data]

/-! ## C6: abstraction of a peer entry and simulation of the merge -/

/-- Address fragments of a peer entry, as the merge reads them:
`existing.address?.split(',') ?? []`. -/
def peerFrags (p : Peer) : List String :=
  match p.address with
  | some a => splitComma a
  | none => []

/-- Abstract view of a peer entry: alias, last-seen, the set of address
fragments, and whether an address string is present. -/
structure PeerAbs where
  aliasA : Option String
  lastSeen : Option Int
  frags : Finset String
  hasAddr : Bool
deriving DecidableEq

/-- Abstraction of one peer entry. -/
def absPeer (p : Peer) : PeerAbs :=
  { aliasA := p.aliasP, lastSeen := p.lastSeen, frags := (peerFrags p).toFinset,
    hasAddr := p.address.isSome }

/-- Abstract merge of a received record into an existing abstract entry. -/
def semMerge (a : PeerAbs) (pi : PeerAddressInfo) : PeerAbs :=
  { aliasA := a.aliasA, lastSeen := some (max (a.lastSeen.getD 0) pi.lastSeen),
    frags := a.frags ∪ pi.multiaddrs.toFinset, hasAddr := true }

/-- Abstract fresh entry for a received record. -/
def semNew (pi : PeerAddressInfo) : PeerAbs :=
  { aliasA := none, lastSeen := some pi.lastSeen, frags := pi.multiaddrs.toFinset,
    hasAddr := true }

/-- Abstraction of a peer book: the first entry per principal, abstracted. -/
def absBook (book : List Peer) : String → Option PeerAbs :=
  fun pr => (findPeer book pr).map absPeer

/-- Abstract counterpart of `applyPeerInfo`. -/
def semApply (self : String) (f : String → Option PeerAbs) (pi : PeerAddressInfo) :
    String → Option PeerAbs :=
  if pi.principal = self then f
  else fun pr =>
    if pr = pi.principal then
      some (match f pi.principal with
            | some a => semMerge a pi
            | none => semNew pi)
    else f pr

/-- Comma-free, non-empty, duplicate-free address list — true of the
multiaddr lists PX-1 carries. -/
def GoodRec (pi : PeerAddressInfo) : Prop :=
  pi.multiaddrs ≠ [] ∧ (∀ a ∈ pi.multiaddrs, ',' ∉ a.data) ∧ pi.multiaddrs.Nodup

theorem peerFrags_mergePeer (p : Peer) (pi : PeerAddressInfo)
    (hne : pi.multiaddrs ≠ []) (hcf : ∀ a ∈ pi.multiaddrs, ',' ∉ a.data) :
    peerFrags (mergePeer p pi) = dedupStr (peerFrags p ++ pi.multiaddrs) := by
  have hfr : peerFrags (mergePeer p pi) =
      splitComma (joinComma (dedupStr (peerFrags p ++ pi.multiaddrs))) := rfl
  rw [hfr]
  refine splitComma_joinComma _ ?_ ?_
  · refine dedupStr_ne_nil _ ?_
    intro h
    rw [List.append_eq_nil] at h
    exact hne h.2
  · intro x hx
    rcases List.mem_append.mp ((mem_dedupStr _ x).mp hx) with h1 | h1
    · unfold peerFrags at h1
      cases ha : p.address with
      | none => rw [ha] at h1; cases h1
      | some a =>
        rw [ha] at h1
        exact noComma_of_mem_splitComma a x h1
    · exact hcf x h1

theorem absPeer_mergePeer (p : Peer) (pi : PeerAddressInfo)
    (hne : pi.multiaddrs ≠ []) (hcf : ∀ a ∈ pi.multiaddrs, ',' ∉ a.data) :
    absPeer (mergePeer p pi) = semMerge (absPeer p) pi := by
  unfold absPeer semMerge
  have h1 : peerFrags (mergePeer p pi) = dedupStr (peerFrags p ++ pi.multiaddrs) :=
    peerFrags_mergePeer p pi hne hcf
  have h2 : (peerFrags (mergePeer p pi)).toFinset =
      (peerFrags p).toFinset ∪ pi.multiaddrs.toFinset := by
    rw [h1, toFinset_dedupStr_append]
  rw [h2]
  rfl

theorem peerFrags_newPeerOf (pi : PeerAddressInfo)
    (hne : pi.multiaddrs ≠ []) (hcf : ∀ a ∈ pi.multiaddrs, ',' ∉ a.data) :
    peerFrags (newPeerOf pi) = pi.multiaddrs := by
  have hfr : peerFrags (newPeerOf pi) = splitComma (joinComma pi.multiaddrs) := rfl
  rw [hfr]
  exact splitComma_joinComma _ hne hcf

theorem absPeer_newPeerOf (pi : PeerAddressInfo)
    (hne : pi.multiaddrs ≠ []) (hcf : ∀ a ∈ pi.multiaddrs, ',' ∉ a.data) :
    absPeer (newPeerOf pi) = semNew pi := by
  unfold absPeer semNew
  rw [peerFrags_newPeerOf pi hne hcf]
  rfl

theorem findPeer_cons (p : Peer) (rest : List Peer) (pr : String) :
    findPeer (p :: rest) pr = if p.principal = pr then some p else findPeer rest pr := by
  by_cases hp : p.principal = pr
  · rw [if_pos hp]
    exact List.find?_cons_of_pos _ (decide_eq_true hp)
  · rw [if_neg hp]
    exact List.find?_cons_of_neg _ (by simpa using hp)

theorem mergeFirst_none_iff (book : List Peer) (pi : PeerAddressInfo) :
    mergeFirst book pi = none ↔ findPeer book pi.principal = none := by
  induction book with
  | nil => simp [mergeFirst, findPeer]
  | cons p rest ih =>
    rw [findPeer_cons]
    by_cases hp : p.principal = pi.principal
    · rw [if_pos hp]
      constructor
      · intro h
        rw [mergeFirst, if_pos hp] at h
        cases h
      · intro h
        cases h
    · rw [if_neg hp, mergeFirst, if_neg hp]
      cases hmf : mergeFirst rest pi with
      | some rest1 =>
        constructor
        · intro h; cases h
        · intro h
          rw [← ih] at h
          rw [hmf] at h
          cases h
      | none =>
        simpa [hmf] using ih

theorem mergeFirst_some_spec (book : List Peer) (pi : PeerAddressInfo) :
    ∀ book1, mergeFirst book pi = some book1 →
      (∃ p, findPeer book pi.principal = some p ∧
        findPeer book1 pi.principal = some (mergePeer p pi)) ∧
      (∀ pr, pr ≠ pi.principal → findPeer book1 pr = findPeer book pr) := by
  induction book with
  | nil => intro book1 h; cases h
  | cons p rest ih =>
    intro book1 h
    by_cases hp : p.principal = pi.principal
    · rw [mergeFirst, if_pos hp] at h
      cases h
      constructor
      · refine ⟨p, ?_, ?_⟩
        · rw [findPeer_cons, if_pos hp]
        · have hmp : (mergePeer p pi).principal = pi.principal := hp
          rw [findPeer_cons, if_pos hmp]
      · intro pr hpr
        have hne : ¬ p.principal = pr := fun hc => hpr (hc ▸ hp)
        have hne2 : ¬ (mergePeer p pi).principal = pr := hne
        rw [findPeer_cons, if_neg hne2, findPeer_cons, if_neg hne]
    · rw [mergeFirst, if_neg hp] at h
      cases hmf : mergeFirst rest pi with
      | none => rw [hmf] at h; cases h
      | some rest1 =>
        rw [hmf] at h
        cases h
        obtain ⟨⟨p0, hf0, hf1⟩, hother⟩ := ih rest1 hmf
        constructor
        · refine ⟨p0, ?_, ?_⟩
          · rw [findPeer_cons, if_neg hp]
            exact hf0
          · rw [findPeer_cons, if_neg hp]
            exact hf1
        · intro pr hpr
          by_cases hppr : p.principal = pr
          · rw [findPeer_cons, if_pos hppr, findPeer_cons, if_pos hppr]
          · rw [findPeer_cons, if_neg hppr, findPeer_cons, if_neg hppr]
            exact hother pr hpr

theorem findPeer_append_single (book : List Peer) (q : Peer) (pr : String) :
    findPeer (book ++ [q]) pr =
      (findPeer book pr).or (if q.principal = pr then some q else none) := by
  induction book with
  | nil =>
    rw [List.nil_append, findPeer_cons]
    have hnil : findPeer [] pr = none := rfl
    rw [hnil, Option.none_or]
  | cons p rest ih =>
    rw [List.cons_append, findPeer_cons, findPeer_cons]
    by_cases hp : p.principal = pr
    · rw [if_pos hp, if_pos hp]
      rfl
    · rw [if_neg hp, if_neg hp]
      exact ih

/-- Simulation: applying one received record and then abstracting equals
abstracting and applying the abstract merge. -/
theorem absBook_applyPeerInfo (self : String) (book : List Peer) (pi : PeerAddressInfo)
    (hne : pi.multiaddrs ≠ []) (hcf : ∀ a ∈ pi.multiaddrs, ',' ∉ a.data) :
    absBook (applyPeerInfo self book pi) = semApply self (absBook book) pi := by
  funext pr
  by_cases hself : pi.principal = self
  · rw [applyPeerInfo, if_pos hself, semApply, if_pos hself]
  · rw [applyPeerInfo, if_neg hself, semApply, if_neg hself]
    cases hmf : mergeFirst book pi with
    | some book1 =>
      obtain ⟨⟨p0, hf0, hf1⟩, hother⟩ := mergeFirst_some_spec book pi book1 hmf
      by_cases hpr : pr = pi.principal
      · subst hpr
        show (findPeer book1 pi.principal).map absPeer = _
        rw [hf1]
        show some (absPeer (mergePeer p0 pi)) = _
        rw [absPeer_mergePeer p0 pi hne hcf]
        have hab : absBook book pi.principal = some (absPeer p0) := by
          show (findPeer book pi.principal).map absPeer = _
          rw [hf0]
          rfl
        rw [if_pos rfl, hab]
      · show (findPeer book1 pr).map absPeer = _
        rw [hother pr hpr, if_neg hpr]
        rfl
    | none =>
      have hfnone : findPeer book pi.principal = none := (mergeFirst_none_iff book pi).mp hmf
      by_cases hpr : pr = pi.principal
      · subst hpr
        show (findPeer (book ++ [newPeerOf pi]) pi.principal).map absPeer = _
        rw [findPeer_append_single, hfnone]
        have hq : (newPeerOf pi).principal = pi.principal := rfl
        rw [if_pos hq]
        show some (absPeer (newPeerOf pi)) = _
        rw [absPeer_newPeerOf pi hne hcf]
        have hab : absBook book pi.principal = none := by
          show (findPeer book pi.principal).map absPeer = _
          rw [hfnone]
          rfl
        rw [if_pos rfl, hab]
      · show (findPeer (book ++ [newPeerOf pi]) pr).map absPeer = _
        rw [findPeer_append_single]
        have hq : ¬ (newPeerOf pi).principal = pr := fun hc => hpr hc.symm
        rw [if_neg hq, Option.or_none]
        rw [if_neg hpr]
        rfl

theorem semApply_self (self : String) (f : String → Option PeerAbs)
    (pi : PeerAddressInfo) (h : pi.principal = self) : semApply self f pi = f := by
  rw [semApply, if_pos h]

theorem semApply_val (self : String) (f : String → Option PeerAbs)
    (pi : PeerAddressInfo) (pr : String) (h : ¬ pi.principal = self) :
    semApply self f pi pr =
      if pr = pi.principal then
        some (match f pi.principal with
              | some a => semMerge a pi
              | none => semNew pi)
      else f pr := by
  rw [semApply, if_neg h]

theorem semMerge_comm (a : PeerAbs) (pi1 pi2 : PeerAddressInfo) :
    semMerge (semMerge a pi1) pi2 = semMerge (semMerge a pi2) pi1 := by
  simp only [semMerge, Option.getD_some]
  rw [sup_right_comm, Finset.union_right_comm]

theorem semMerge_semNew_comm (pi1 pi2 : PeerAddressInfo) :
    semMerge (semNew pi1) pi2 = semMerge (semNew pi2) pi1 := by
  simp only [semMerge, semNew, Option.getD_some]
  rw [sup_comm, Finset.union_comm]

/-- The abstract merge treats distinct received records commutatively. -/
theorem semApply_comm (self : String) (f : String → Option PeerAbs)
    (pi1 pi2 : PeerAddressInfo) :
    semApply self (semApply self f pi1) pi2 = semApply self (semApply self f pi2) pi1 := by
  by_cases h1 : pi1.principal = self
  · rw [semApply_self self f pi1 h1, semApply_self self (semApply self f pi2) pi1 h1]
  · by_cases h2 : pi2.principal = self
    · rw [semApply_self self (semApply self f pi1) pi2 h2, semApply_self self f pi2 h2]
    · funext pr
      rw [semApply_val self (semApply self f pi1) pi2 pr h2,
        semApply_val self (semApply self f pi2) pi1 pr h1,
        semApply_val self f pi1 pi2.principal h1,
        semApply_val self f pi2 pi1.principal h2,
        semApply_val self f pi1 pr h1,
        semApply_val self f pi2 pr h2]
      by_cases hp : pi1.principal = pi2.principal
      · rw [← hp]
        by_cases hpr : pr = pi1.principal
        · simp only [if_pos hpr, if_pos rfl]
          cases hf : f pi1.principal with
          | some a =>
            exact congrArg some (semMerge_comm a pi1 pi2)
          | none =>
            exact congrArg some (semMerge_semNew_comm pi1 pi2)
        · simp only [if_neg hpr]
      · have hp' : ¬ pi2.principal = pi1.principal := fun hc => hp hc.symm
        by_cases hpr2 : pr = pi2.principal
        · have hpr1 : ¬ pr = pi1.principal := fun hc => hp (hc ▸ hpr2)
          simp only [if_pos hpr2, if_neg hpr1, if_neg hp, if_neg hp']
        · by_cases hpr1 : pr = pi1.principal
          · simp only [if_pos hpr1, if_neg hpr2, if_neg hp, if_neg hp']
          · simp only [if_neg hpr1, if_neg hpr2]

/-- Goodness hypotheses used for the received records: non-empty, comma-free
multiaddr lists (`GoodRec` additionally demands no duplicates). -/
def OkRec (pi : PeerAddressInfo) : Prop :=
  pi.multiaddrs ≠ [] ∧ ∀ a ∈ pi.multiaddrs, ',' ∉ a.data

theorem absBook_foldl (self : String) :
    ∀ (rs : List PeerAddressInfo) (book : List Peer), (∀ pi ∈ rs, OkRec pi) →
      absBook (rs.foldl (applyPeerInfo self) book) = rs.foldl (semApply self) (absBook book)
  | [], _, _ => rfl
  | pi :: rest, book, h => by
    rw [List.foldl_cons, List.foldl_cons]
    rw [absBook_foldl self rest _ (fun x hx => h x (List.mem_cons_of_mem _ hx))]
    rw [absBook_applyPeerInfo self book pi (h pi (List.mem_cons_self _ _)).1
      (h pi (List.mem_cons_self _ _)).2]

theorem foldl_semApply_perm (self : String) {l1 l2 : List PeerAddressInfo}
    (hp : l1.Perm l2) :
    ∀ f : String → Option PeerAbs,
      l1.foldl (semApply self) f = l2.foldl (semApply self) f := by
  induction hp with
  | nil => intro f; rfl
  | cons x _ ih =>
    intro f
    rw [List.foldl_cons, List.foldl_cons]
    exact ih _
  | swap x y l =>
    intro f
    rw [List.foldl_cons, List.foldl_cons, List.foldl_cons, List.foldl_cons]
    rw [semApply_comm]
  | trans _ _ ih1 ih2 =>
    intro f
    exact (ih1 f).trans (ih2 f)

theorem peerFrags_of_address (p : Peer) (s : String) (h : p.address = some s) :
    peerFrags p = splitComma s := by
  unfold peerFrags
  rw [h]

theorem peerFrags_noComma (p : Peer) : ∀ x ∈ peerFrags p, ',' ∉ x.data := by
  intro x hx
  unfold peerFrags at hx
  cases ha : p.address with
  | none => rw [ha] at hx; cases hx
  | some a => rw [ha] at hx; exact noComma_of_mem_splitComma a x hx

/-- An entry the merge leaves literally unchanged: its fragments are
duplicate-free, the address field is the comma-join of its own fragments,
and the last-seen value already dominates. -/
theorem mergePeer_eq_self (p : Peer) (pi : PeerAddressInfo)
    (h1 : dedupStr (peerFrags p ++ pi.multiaddrs) = peerFrags p)
    (h2 : p.address = some (joinComma (peerFrags p)))
    (h3 : ∃ x, p.lastSeen = some x ∧ pi.lastSeen ≤ x) : mergePeer p pi = p := by
  obtain ⟨x, hx, hlx⟩ := h3
  have hm : mergePeer p pi =
      { p with address := some (joinComma (dedupStr (peerFrags p ++ pi.multiaddrs))),
               lastSeen := some (max (p.lastSeen.getD 0) pi.lastSeen) } := rfl
  rw [hm, h1, ← h2, hx]
  have hmax : max ((some x).getD 0) pi.lastSeen = x := by
    rw [Option.getD_some]
    exact max_eq_left hlx
  rw [hmax, ← hx]

theorem mergePeer_fixed_elim (p : Peer) (pi : PeerAddressInfo)
    (hcf : ∀ a ∈ pi.multiaddrs, ',' ∉ a.data) (h : mergePeer p pi = p) :
    (peerFrags p).Nodup ∧ (∀ x ∈ pi.multiaddrs, x ∈ peerFrags p) ∧
    (∃ x, p.lastSeen = some x ∧ pi.lastSeen ≤ x) ∧
    p.address = some (joinComma (peerFrags p)) := by
  have haddr : p.address =
      some (joinComma (dedupStr (peerFrags p ++ pi.multiaddrs))) :=
    (congrArg Peer.address h).symm
  have hls : p.lastSeen = some (max (p.lastSeen.getD 0) pi.lastSeen) :=
    (congrArg Peer.lastSeen h).symm
  have hfr0 : peerFrags p =
      splitComma (joinComma (dedupStr (peerFrags p ++ pi.multiaddrs))) :=
    peerFrags_of_address p _ haddr
  have hcfu : ∀ y ∈ dedupStr (peerFrags p ++ pi.multiaddrs), ',' ∉ y.data := by
    intro y hy
    rcases List.mem_append.mp ((mem_dedupStr _ y).mp hy) with h1 | h1
    · exact peerFrags_noComma p y h1
    · exact hcf y h1
  have hune : dedupStr (peerFrags p ++ pi.multiaddrs) ≠ [] := by
    intro h0
    have hone : peerFrags p = [""] := by
      rw [hfr0, h0]
      rfl
    have hmem : "" ∈ dedupStr (peerFrags p ++ pi.multiaddrs) := by
      refine (mem_dedupStr _ _).mpr (List.mem_append.mpr (Or.inl ?_))
      rw [hone]
      exact List.mem_singleton_self ""
    rw [h0] at hmem
    cases hmem
  have hfru : peerFrags p = dedupStr (peerFrags p ++ pi.multiaddrs) :=
    hfr0.trans (splitComma_joinComma _ hune hcfu)
  refine ⟨?_, ?_, ?_, ?_⟩
  · rw [hfru]
    exact nodup_dedupStr _
  · intro y hy
    rw [hfru]
    exact (mem_dedupStr _ y).mpr (List.mem_append.mpr (Or.inr hy))
  · exact ⟨max (p.lastSeen.getD 0) pi.lastSeen, hls, le_max_right _ _⟩
  · rw [haddr, ← hfru]

/-- Merging the same received record into an entry twice is the same as
merging it once. -/
theorem mergePeer_idem (p : Peer) (pi : PeerAddressInfo)
    (hcf : ∀ a ∈ pi.multiaddrs, ',' ∉ a.data) :
    mergePeer (mergePeer p pi) pi = mergePeer p pi := by
  have haddr : (mergePeer p pi).address =
      some (joinComma (dedupStr (peerFrags p ++ pi.multiaddrs))) := rfl
  have hls : (mergePeer p pi).lastSeen =
      some (max (p.lastSeen.getD 0) pi.lastSeen) := rfl
  by_cases hu : dedupStr (peerFrags p ++ pi.multiaddrs) = []
  · have hm : pi.multiaddrs = [] := by
      have h0 : peerFrags p ++ pi.multiaddrs = [] := by
        by_contra hne
        exact dedupStr_ne_nil _ hne hu
      exact (List.append_eq_nil.mp h0).2
    have hfr : peerFrags (mergePeer p pi) = [""] := by
      rw [peerFrags_of_address _ _ haddr, hu]
      decide
    refine mergePeer_eq_self _ _ ?_ ?_ ?_
    · rw [hfr, hm]
      decide
    · rw [hfr, haddr, hu]
      decide
    · exact ⟨_, hls, le_max_right _ _⟩
  · have hcfu : ∀ y ∈ dedupStr (peerFrags p ++ pi.multiaddrs), ',' ∉ y.data := by
      intro y hy
      rcases List.mem_append.mp ((mem_dedupStr _ y).mp hy) with h1 | h1
      · exact peerFrags_noComma p y h1
      · exact hcf y h1
    have hfr : peerFrags (mergePeer p pi) =
        dedupStr (peerFrags p ++ pi.multiaddrs) :=
      (peerFrags_of_address _ _ haddr).trans (splitComma_joinComma _ hu hcfu)
    refine mergePeer_eq_self _ _ ?_ ?_ ?_
    · rw [hfr]
      refine dedupStr_append_absorb _ _ (nodup_dedupStr _) ?_
      intro y hy
      exact (mem_dedupStr _ y).mpr (List.mem_append.mpr (Or.inr hy))
    · rw [hfr, haddr]
    · exact ⟨_, hls, le_max_right _ _⟩

/-- Merging a record into the fresh entry it just created is a no-op. -/
theorem mergePeer_new_fixed (pi : PeerAddressInfo)
    (hcf : ∀ a ∈ pi.multiaddrs, ',' ∉ a.data) (hnd : pi.multiaddrs.Nodup) :
    mergePeer (newPeerOf pi) pi = newPeerOf pi := by
  have haddr : (newPeerOf pi).address = some (joinComma pi.multiaddrs) := rfl
  have hls : (newPeerOf pi).lastSeen = some pi.lastSeen := rfl
  by_cases hm : pi.multiaddrs = []
  · have hfr : peerFrags (newPeerOf pi) = [""] := by
      rw [peerFrags_of_address _ _ haddr, hm]
      decide
    refine mergePeer_eq_self _ _ ?_ ?_ ?_
    · rw [hfr, hm]
      decide
    · rw [hfr, haddr, hm]
      decide
    · exact ⟨_, hls, le_refl _⟩
  · have hfr : peerFrags (newPeerOf pi) = pi.multiaddrs := peerFrags_newPeerOf pi hm hcf
    refine mergePeer_eq_self _ _ ?_ ?_ ?_
    · rw [hfr]
      exact dedupStr_append_absorb _ _ hnd (fun y hy => hy)
    · rw [hfr, haddr]
    · exact ⟨_, hls, le_refl _⟩

/-- An entry already fixed under a record stays fixed under it after any
further comma-free merge. -/
theorem mergePeer_stable (p : Peer) (pi piB : PeerAddressInfo)
    (hcf : ∀ a ∈ pi.multiaddrs, ',' ∉ a.data)
    (hcfB : ∀ a ∈ piB.multiaddrs, ',' ∉ a.data)
    (h : mergePeer p pi = p) :
    mergePeer (mergePeer p piB) pi = mergePeer p piB := by
  obtain ⟨hnd, hsub, ⟨x, hx, hlx⟩, haddr⟩ := mergePeer_fixed_elim p pi hcf h
  have hqaddr : (mergePeer p piB).address =
      some (joinComma (dedupStr (peerFrags p ++ piB.multiaddrs))) := rfl
  have hqls : (mergePeer p piB).lastSeen =
      some (max (p.lastSeen.getD 0) piB.lastSeen) := rfl
  have hfpne : peerFrags p ≠ [] := by
    rw [peerFrags_of_address p _ haddr]
    exact splitComma_ne_nil _
  have huq : dedupStr (peerFrags p ++ piB.multiaddrs) ≠ [] := by
    refine dedupStr_ne_nil _ ?_
    intro h0
    exact hfpne (List.append_eq_nil.mp h0).1
  have hcfuq : ∀ y ∈ dedupStr (peerFrags p ++ piB.multiaddrs), ',' ∉ y.data := by
    intro y hy
    rcases List.mem_append.mp ((mem_dedupStr _ y).mp hy) with h1 | h1
    · exact peerFrags_noComma p y h1
    · exact hcfB y h1
  have hqfr : peerFrags (mergePeer p piB) =
      dedupStr (peerFrags p ++ piB.multiaddrs) :=
    (peerFrags_of_address _ _ hqaddr).trans (splitComma_joinComma _ huq hcfuq)
  refine mergePeer_eq_self _ _ ?_ ?_ ?_
  · rw [hqfr]
    refine dedupStr_append_absorb _ _ (nodup_dedupStr _) ?_
    intro y hy
    exact (mem_dedupStr _ y).mpr (List.mem_append.mpr (Or.inl (hsub y hy)))
  · rw [hqfr, hqaddr]
  · refine ⟨max (p.lastSeen.getD 0) piB.lastSeen, hqls, ?_⟩
    rw [hx, Option.getD_some]
    exact le_trans hlx (le_max_left _ _)

theorem mergeFirst_of_fixed (book : List Peer) (pi : PeerAddressInfo) :
    ∀ p, findPeer book pi.principal = some p → mergePeer p pi = p →
      mergeFirst book pi = some book := by
  induction book with
  | nil => intro p hf; cases hf
  | cons q rest ih =>
    intro p hf hfix
    rw [findPeer_cons] at hf
    by_cases hq : q.principal = pi.principal
    · rw [if_pos hq] at hf
      cases hf
      rw [mergeFirst, if_pos hq, hfix]
    · rw [if_neg hq] at hf
      rw [mergeFirst, if_neg hq, ih p hf hfix]

/-- A received record the peer book has already fully absorbed: either it is
our own principal (skipped) or the first matching entry is fixed under the
merge. -/
def Absorbed (self : String) (book : List Peer) (pi : PeerAddressInfo) : Prop :=
  pi.principal = self ∨ ∃ p, findPeer book pi.principal = some p ∧ mergePeer p pi = p

theorem applyPeerInfo_fixed (self : String) (book : List Peer) (pi : PeerAddressInfo)
    (h : Absorbed self book pi) : applyPeerInfo self book pi = book := by
  rcases h with h | ⟨p, hf, hfix⟩
  · rw [applyPeerInfo, if_pos h]
  · by_cases hs : pi.principal = self
    · rw [applyPeerInfo, if_pos hs]
    · rw [applyPeerInfo, if_neg hs, mergeFirst_of_fixed book pi p hf hfix]

theorem absorbed_after_apply (self : String) (book : List Peer) (pi : PeerAddressInfo)
    (hcf : ∀ a ∈ pi.multiaddrs, ',' ∉ a.data) (hnd : pi.multiaddrs.Nodup) :
    Absorbed self (applyPeerInfo self book pi) pi := by
  by_cases hs : pi.principal = self
  · exact Or.inl hs
  · right
    rw [applyPeerInfo, if_neg hs]
    cases hmf : mergeFirst book pi with
    | some book1 =>
      obtain ⟨⟨p0, _, hf1⟩, _⟩ := mergeFirst_some_spec book pi book1 hmf
      exact ⟨mergePeer p0 pi, hf1, mergePeer_idem p0 pi hcf⟩
    | none =>
      have hfn := (mergeFirst_none_iff book pi).mp hmf
      refine ⟨newPeerOf pi, ?_, mergePeer_new_fixed pi hcf hnd⟩
      rw [findPeer_append_single, hfn, Option.none_or]
      have hq : (newPeerOf pi).principal = pi.principal := rfl
      rw [if_pos hq]

theorem absorbed_stable (self : String) (book : List Peer) (pi piB : PeerAddressInfo)
    (hcf : ∀ a ∈ pi.multiaddrs, ',' ∉ a.data)
    (hcfB : ∀ a ∈ piB.multiaddrs, ',' ∉ a.data)
    (h : Absorbed self book pi) : Absorbed self (applyPeerInfo self book piB) pi := by
  rcases h with h | ⟨p, hf, hfix⟩
  · exact Or.inl h
  · by_cases hsB : piB.principal = self
    · rw [applyPeerInfo, if_pos hsB]
      exact Or.inr ⟨p, hf, hfix⟩
    · right
      rw [applyPeerInfo, if_neg hsB]
      cases hmf : mergeFirst book piB with
      | some book1 =>
        obtain ⟨⟨p0, hf0, hf1⟩, hother⟩ := mergeFirst_some_spec book piB book1 hmf
        by_cases hpp : pi.principal = piB.principal
        · rw [hpp, hf0] at hf
          cases hf
          refine ⟨mergePeer p piB, ?_, mergePeer_stable p pi piB hcf hcfB hfix⟩
          rw [hpp]
          exact hf1
        · refine ⟨p, ?_, hfix⟩
          rw [hother pi.principal hpp]
          exact hf
      | none =>
        have hfn := (mergeFirst_none_iff book piB).mp hmf
        by_cases hpp : pi.principal = piB.principal
        · rw [hpp, hfn] at hf
          cases hf
        · refine ⟨p, ?_, hfix⟩
          rw [findPeer_append_single]
          have hq : ¬ (newPeerOf piB).principal = pi.principal := fun hc => hpp hc.symm
          rw [if_neg hq, Option.or_none]
          exact hf

theorem absorbed_foldl (self : String) (rs : List PeerAddressInfo)
    (pi : PeerAddressInfo) (hcf : ∀ a ∈ pi.multiaddrs, ',' ∉ a.data)
    (hok : ∀ r ∈ rs, ∀ a ∈ r.multiaddrs, ',' ∉ a.data) :
    ∀ book, Absorbed self book pi →
      Absorbed self (rs.foldl (applyPeerInfo self) book) pi := by
  induction rs with
  | nil => intro book h; exact h
  | cons r rest ih =>
    intro book h
    rw [List.foldl_cons]
    refine ih (fun x hx => hok x (List.mem_cons_of_mem _ hx)) _ ?_
    exact absorbed_stable self book pi r hcf (hok r (List.mem_cons_self _ _)) h

theorem all_absorbed_after_foldl (self : String) (rs : List PeerAddressInfo)
    (hok : ∀ r ∈ rs, GoodRec r) :
    ∀ book, ∀ pi ∈ rs, Absorbed self (rs.foldl (applyPeerInfo self) book) pi := by
  induction rs with
  | nil => intro book pi hpi; cases hpi
  | cons r rest ih =>
    intro book pi hpi
    rw [List.foldl_cons]
    rcases List.mem_cons.mp hpi with h | h
    · subst h
      refine absorbed_foldl self rest pi (hok pi (List.mem_cons_self _ _)).2.1
        (fun x hx => (hok x (List.mem_cons_of_mem _ hx)).2.1) _ ?_
      exact absorbed_after_apply self book pi (hok pi (List.mem_cons_self _ _)).2.1
        (hok pi (List.mem_cons_self _ _)).2.2
    · exact ih (fun x hx => hok x (List.mem_cons_of_mem _ hx)) _ pi h

theorem foldl_absorbed_id (self : String) (rs : List PeerAddressInfo) :
    ∀ book, (∀ pi ∈ rs, Absorbed self book pi) →
      rs.foldl (applyPeerInfo self) book = book := by
  induction rs with
  | nil => intro book _; rfl
  | cons r rest ih =>
    intro book h
    rw [List.foldl_cons, applyPeerInfo_fixed self book r (h r (List.mem_cons_self _ _))]
    exact ih book (fun pi hpi => h pi (List.mem_cons_of_mem _ hpi))

/-- Applying a well-formed batch of received records twice yields the same
peer book as applying it once. -/
theorem foldl_applyPeerInfo_idem (self : String) (rs : List PeerAddressInfo)
    (book : List Peer) (hok : ∀ r ∈ rs, GoodRec r) :
    rs.foldl (applyPeerInfo self) (rs.foldl (applyPeerInfo self) book) =
      rs.foldl (applyPeerInfo self) book :=
  foldl_absorbed_id self rs _ (all_absorbed_after_foldl self rs hok book)

/-- Two well-formed received records for distinct principals. -/
def rGA : PeerAddressInfo :=
  { principal := "local:peerx", multiaddrs := ["/ip4/1.2.3.4/tcp/1"], lastSeen := 5 }

def rGB : PeerAddressInfo :=
  { principal := "local:peery", multiaddrs := ["/ip4/5.6.7.8/tcp/2"], lastSeen := 6 }

/-- Two received records for the same principal carrying different
multiaddrs. -/
def rCA : PeerAddressInfo :=
  { principal := "local:peerz", multiaddrs := ["/a"], lastSeen := 1 }

def rCB : PeerAddressInfo :=
  { principal := "local:peerz", multiaddrs := ["/b"], lastSeen := 1 }

/-- C6 (corrected).  `handleReceivedPeers` — the PX-1 merge — is idempotent
for well-formed batches (records with non-empty, comma-free, duplicate-free
multiaddr lists): applying the same records twice yields literally the same
daemon state.  It is commutative only up to the abstract per-principal view
(alias, last-seen, the *set* of comma-separated address fragments, presence
of an address): permuting the records yields peer books with equal
abstractions, but not in general literally equal peer books, because the
merged address strings record fragment order. -/
theorem px1_merge_idem_and_order (st : DaemonState) (rs rsB : List PeerAddressInfo)
    (hok : ∀ r ∈ rs, GoodRec r) (hperm : rs.Perm rsB) :
    handleReceivedPeers (handleReceivedPeers st rs) rs = handleReceivedPeers st rs ∧
    absBook (handleReceivedPeers st rs).peers =
      absBook (handleReceivedPeers st rsB).peers := by
  constructor
  · have hfold := foldl_applyPeerInfo_idem st.principal rs st.peers hok
    have key : handleReceivedPeers (handleReceivedPeers st rs) rs =
        { handleReceivedPeers st rs with
          peers := rs.foldl (applyPeerInfo st.principal)
            (rs.foldl (applyPeerInfo st.principal) st.peers),
          diskPeers := rs.foldl (applyPeerInfo st.principal)
            (rs.foldl (applyPeerInfo st.principal) st.peers) } := rfl
    rw [key, hfold]
    rfl
  · have h1 : absBook (handleReceivedPeers st rs).peers =
        rs.foldl (semApply st.principal) (absBook st.peers) :=
      absBook_foldl st.principal rs st.peers
        (fun r hr => ⟨(hok r hr).1, (hok r hr).2.1⟩)
    have h2 : absBook (handleReceivedPeers st rsB).peers =
        rsB.foldl (semApply st.principal) (absBook st.peers) :=
      absBook_foldl st.principal rsB st.peers
        (fun r hr => ⟨(hok r (hperm.mem_iff.mpr hr)).1,
          (hok r (hperm.mem_iff.mpr hr)).2.1⟩)
    rw [h1, h2, foldl_semApply_perm st.principal hperm]

theorem px1_merge_idem_and_order_witness :
    (∀ r ∈ [rGA, rGB], GoodRec r) ∧ List.Perm [rGA, rGB] [rGB, rGA] ∧
    (handleReceivedPeers (handleReceivedPeers st0 [rGA, rGB]) [rGA, rGB] =
        handleReceivedPeers st0 [rGA, rGB] ∧
      absBook (handleReceivedPeers st0 [rGA, rGB]).peers =
        absBook (handleReceivedPeers st0 [rGB, rGA]).peers) := by
  have hok : ∀ r ∈ [rGA, rGB], GoodRec r := by
    intro r hr
    rcases List.mem_cons.mp hr with h | h
    · subst h
      exact ⟨by decide, by decide, by decide⟩
    · rcases List.mem_cons.mp h with h2 | h2
      · subst h2
        exact ⟨by decide, by decide, by decide⟩
      · cases h2
  have hperm : List.Perm [rGA, rGB] [rGB, rGA] := List.Perm.swap rGB rGA []
  exact ⟨hok, hperm, px1_merge_idem_and_order st0 [rGA, rGB] [rGB, rGA] hok hperm⟩

/-! ## C3: attestation verification — list, string and hex lemmas -/

theorem lt_of_getElem?_eq_some {α : Type} {l : List α} {i : Nat} {w : α}
    (h : l[i]? = some w) : i < l.length := by
  by_contra hge
  rw [List.getElem?_eq_none (Nat.le_of_not_lt hge)] at h
  cases h

theorem set_append_left' {α : Type} (l1 l2 : List α) (i : Nat) (v : α)
    (h : i < l1.length) : (l1 ++ l2).set i v = l1.set i v ++ l2 := by
  induction l1 generalizing i with
  | nil => cases h
  | cons a t ih =>
    cases i with
    | zero => rfl
    | succ n =>
      show a :: (t ++ l2).set n v = a :: (t.set n v ++ l2)
      rw [ih n (Nat.lt_of_succ_lt_succ h)]

theorem set_append_right' {α : Type} (l1 l2 : List α) (i : Nat) (v : α)
    (h : l1.length ≤ i) : (l1 ++ l2).set i v = l1 ++ l2.set (i - l1.length) v := by
  induction l1 generalizing i with
  | nil => simp
  | cons a t ih =>
    cases i with
    | zero => exact absurd h (by simp)
    | succ n =>
      show a :: (t ++ l2).set n v = a :: (t ++ l2.set (n + 1 - (t.length + 1)) v)
      have harith : n + 1 - (t.length + 1) = n - t.length := by omega
      rw [harith, ih n (Nat.le_of_succ_le_succ h)]

theorem char_toNat_inj {a b : Char} (h : a.toNat = b.toNat) : a = b := by
  have h2 := congrArg Char.ofNat h
  rwa [Char.ofNat_toNat, Char.ofNat_toNat] at h2

theorem string_ext {s t : String} (h : s.data = t.data) : s = t := by
  have h2 := congrArg String.mk h
  rwa [mk_data, mk_data] at h2

theorem strStarts_false_of (pre s : String) (i : Nat) (x y : Char)
    (hx : pre.data[i]? = some x) (hy : s.data[i]? = some y) (hne : x ≠ y) :
    strStarts pre s = false := by
  rw [strStarts]
  by_contra hb
  have hb' : pre.data.isPrefixOf s.data = true := by
    cases h' : pre.data.isPrefixOf s.data with
    | false => exact absurd h' hb
    | true => rfl
  obtain ⟨r, hr⟩ := List.isPrefixOf_iff_prefix.mp hb'
  have hi := lt_of_getElem?_eq_some hx
  rw [← hr, List.getElem?_append_left hi, hx] at hy
  injection hy with h2
  exact hne h2

theorem strStarts_mk_append (p : String) (r : List Char) :
    strStarts p (String.mk (p.data ++ r)) = true := by
  show p.data.isPrefixOf (p.data ++ r) = true
  exact List.isPrefixOf_iff_prefix.mpr (List.prefix_append _ _)

theorem strDrop_mk_append (p : String) (r : List Char) :
    strDrop p.data.length (String.mk (p.data ++ r)) = String.mk r := by
  show String.mk ((p.data ++ r).drop p.data.length) = String.mk r
  rw [List.drop_left]

theorem hexDecodeL_hexOfBytes (bs : List Nat) (h : ∀ b ∈ bs, b < 256) :
    hexDecodeL (hexOfBytes bs).data = some bs := by
  induction bs with
  | nil => rfl
  | cons b t ih =>
    rw [hexOfBytes_cons]
    simp only [hexDecodeL]
    rw [hexVal_hexDigitChar _ (by omega), hexVal_hexDigitChar _ (by omega),
      ih (fun x hx => h x (List.mem_cons_of_mem _ hx))]
    have hb : b < 256 := h b (List.mem_cons_self _ _)
    have harith : 16 * (b / 16 % 16) + b % 16 = b := by omega
    exact congrArg (fun x => some (x :: t)) harith

theorem hexDecode_hexOfBytes (bs : List Nat) (h : ∀ b ∈ bs, b < 256) :
    hexDecode (hexOfBytes bs) = some bs :=
  hexDecodeL_hexOfBytes bs h

theorem hexOfBytes_inj {bs1 bs2 : List Nat} (h1 : ∀ b ∈ bs1, b < 256)
    (h2 : ∀ b ∈ bs2, b < 256) (he : hexOfBytes bs1 = hexOfBytes bs2) : bs1 = bs2 := by
  have hd := hexDecode_hexOfBytes bs1 h1
  rw [he, hexDecode_hexOfBytes bs2 h2] at hd
  injection hd with hd2
  exact hd2.symm

theorem stacksAddr_inj {tn : Bool} {w1 w2 : List Nat} (h1 : ∀ b ∈ w1, b < 256)
    (h2 : ∀ b ∈ w2, b < 256) (he : stacksAddr tn w1 = stacksAddr tn w2) : w1 = w2 := by
  unfold stacksAddr at he
  have hd := congrArg String.data he
  rw [String.data_append, String.data_append] at hd
  have hx : (hexOfBytes w1).data = (hexOfBytes w2).data := List.append_cancel_left hd
  exact hexOfBytes_inj h1 h2 (string_ext hx)

theorem map_toNat_inj : ∀ {l1 l2 : List Char},
    l1.map Char.toNat = l2.map Char.toNat → l1 = l2
  | [], [], _ => rfl
  | [], _ :: _, h => by cases h
  | _ :: _, [], h => by cases h
  | c1 :: r1, c2 :: r2, h => by
    injection h with h1 h2
    rw [char_toNat_inj h1, map_toNat_inj h2]

theorem utfBytes_inj {l1 l2 : List Char} (h : utfBytes l1 = utfBytes l2) : l1 = l2 :=
  map_toNat_inj h

theorem jsonEscChar_plain (c : Char) (h1 : c ≠ '"') (h2 : c ≠ '\\')
    (h3 : 32 ≤ c.toNat) : jsonEscChar c = [c] := by
  have h8 : c ≠ Char.ofNat 8 := fun hc => by rw [hc] at h3; exact absurd h3 (by decide)
  have h9 : c ≠ Char.ofNat 9 := fun hc => by rw [hc] at h3; exact absurd h3 (by decide)
  have h10 : c ≠ Char.ofNat 10 := fun hc => by rw [hc] at h3; exact absurd h3 (by decide)
  have h12 : c ≠ Char.ofNat 12 := fun hc => by rw [hc] at h3; exact absurd h3 (by decide)
  have h13 : c ≠ Char.ofNat 13 := fun hc => by rw [hc] at h3; exact absurd h3 (by decide)
  have h32 : ¬ c.toNat < 32 := by omega
  unfold jsonEscChar
  rw [if_neg h1, if_neg h2, if_neg h8, if_neg h9, if_neg h10, if_neg h12,
    if_neg h13, if_neg h32]

theorem jsonEscChar_len (c : Char) :
    jsonEscChar c = [c] ∨ (jsonEscChar c).length ≠ 1 := by
  unfold jsonEscChar
  split_ifs
  · exact Or.inr (by simp)
  · exact Or.inr (by simp)
  · exact Or.inr (by simp)
  · exact Or.inr (by simp)
  · exact Or.inr (by simp)
  · exact Or.inr (by simp)
  · exact Or.inr (by simp)
  · exact Or.inr (by simp)
  · exact Or.inl rfl

theorem jsonEscL_append (a b : List Char) :
    jsonEscL (a ++ b) = jsonEscL a ++ jsonEscL b := by
  induction a with
  | nil => rfl
  | cons c t ih =>
    show jsonEscChar c ++ jsonEscL (t ++ b) = (jsonEscChar c ++ jsonEscL t) ++ jsonEscL b
    rw [ih, List.append_assoc]

theorem jsonEscL_plain (l : List Char)
    (h : ∀ c ∈ l, c ≠ '"' ∧ c ≠ '\\' ∧ 32 ≤ c.toNat) : jsonEscL l = l := by
  induction l with
  | nil => rfl
  | cons c t ih =>
    obtain ⟨h1, h2, h3⟩ := h c (List.mem_cons_self _ _)
    show jsonEscChar c ++ jsonEscL t = c :: t
    rw [jsonEscChar_plain c h1 h2 h3, ih (fun x hx => h x (List.mem_cons_of_mem _ hx))]
    rfl

theorem hexChar_plain (c : Char) (h : (hexVal c).isSome = true) :
    c ≠ '"' ∧ c ≠ '\\' ∧ 32 ≤ c.toNat := by
  unfold hexVal at h
  by_cases h1 : 48 ≤ c.toNat ∧ c.toNat ≤ 57
  · refine ⟨?_, ?_, by omega⟩
    · intro hc; rw [hc] at h1; exact absurd h1 (by decide)
    · intro hc; rw [hc] at h1; exact absurd h1 (by decide)
  · rw [if_neg h1] at h
    by_cases h2 : 97 ≤ c.toNat ∧ c.toNat ≤ 102
    · refine ⟨?_, ?_, by omega⟩
      · intro hc; rw [hc] at h2; exact absurd h2 (by decide)
      · intro hc; rw [hc] at h2; exact absurd h2 (by decide)
    · rw [if_neg h2] at h
      cases h

theorem hexOfBytes_plain (bs : List Nat) :
    ∀ c ∈ (hexOfBytes bs).data, c ≠ '"' ∧ c ≠ '\\' ∧ 32 ≤ c.toNat :=
  fun c hc => hexChar_plain c (hexOfBytes_chars bs c hc)

theorem set_eq_take_cons_drop {α : Type} (l : List α) (i : Nat) (v : α)
    (h : i < l.length) : l.set i v = l.take i ++ v :: l.drop (i + 1) := by
  induction l generalizing i with
  | nil => cases h
  | cons a t ih =>
    cases i with
    | zero => rfl
    | succ n =>
      show a :: t.set n v = a :: (t.take n ++ v :: t.drop (n + 1))
      rw [ih n (Nat.lt_of_succ_lt_succ h)]

theorem jsonEscL_set_ne (l : List Char) (i : Nat) (c w : Char)
    (hplain : ∀ x ∈ l, x ≠ '"' ∧ x ≠ '\\' ∧ 32 ≤ x.toNat)
    (hw : l[i]? = some w) (hc : c ≠ w) :
    jsonEscL (l.set i c) ≠ jsonEscL l := by
  intro h
  have hi : i < l.length := lt_of_getElem?_eq_some hw
  have hplain_take : ∀ x ∈ l.take i, x ≠ '"' ∧ x ≠ '\\' ∧ 32 ≤ x.toNat :=
    fun x hx => hplain x (List.mem_of_mem_take hx)
  have hplain_drop : ∀ x ∈ l.drop (i + 1), x ≠ '"' ∧ x ≠ '\\' ∧ 32 ≤ x.toNat :=
    fun x hx => hplain x (List.mem_of_mem_drop hx)
  have hesc : jsonEscL (l.set i c) = l.take i ++ (jsonEscChar c ++ l.drop (i + 1)) := by
    rw [set_eq_take_cons_drop l i c hi, jsonEscL_append]
    rw [jsonEscL_plain _ hplain_take]
    have h2 : jsonEscL (c :: l.drop (i + 1)) =
        jsonEscChar c ++ jsonEscL (l.drop (i + 1)) := rfl
    rw [h2, jsonEscL_plain _ hplain_drop]
  have hescl : jsonEscL l = l := jsonEscL_plain l hplain
  have hfin : l.take i ++ (jsonEscChar c ++ l.drop (i + 1)) = l :=
    hesc.symm.trans (h.trans hescl)
  rcases jsonEscChar_len c with hone | hlen
  · rw [hone] at hfin
    have hset_eq : l.set i c = l := by
      rw [set_eq_take_cons_drop l i c hi]
      exact hfin
    have h2 := congrArg (fun x => x[i]?) hset_eq
    simp only at h2
    rw [List.getElem?_set_self hi, hw] at h2
    injection h2 with h3
    exact hc h3
  · have h2 := congrArg List.length hfin
    rw [List.length_append, List.length_append, List.length_take, List.length_drop,
      Nat.min_eq_left (Nat.le_of_lt hi)] at h2
    exact hlen (by omega)

theorem jsonPayload_inj_p {v : Nat} {ts ex : Int} {p1 p2 n o d : String}
    (h : jsonAttPayloadL v p1 n ts ex o d = jsonAttPayloadL v p2 n ts ex o d) :
    jsonEscL p1.data = jsonEscL p2.data := by
  unfold jsonAttPayloadL at h
  have h1 := List.append_cancel_left h
  have hlen := congrArg List.length h1
  simp only [List.length_append] at hlen
  have hq := (List.append_inj h1 (by omega)).1
  unfold jsonQuoteL at hq
  injection hq with _ hq2
  have hlen2 := congrArg List.length hq2
  simp only [List.length_append] at hlen2
  exact (List.append_inj hq2 (by omega)).1

theorem jsonPayload_inj_npk {v : Nat} {ts ex : Int} {p n1 n2 o d : String}
    (h : jsonAttPayloadL v p n1 ts ex o d = jsonAttPayloadL v p n2 ts ex o d) :
    jsonEscL n1.data = jsonEscL n2.data := by
  unfold jsonAttPayloadL at h
  have h1 := List.append_cancel_left h
  have h2 := List.append_cancel_left h1
  have h3 := List.append_cancel_left h2
  have hlen := congrArg List.length h3
  simp only [List.length_append] at hlen
  have hq := (List.append_inj h3 (by omega)).1
  unfold jsonQuoteL at hq
  injection hq with _ hq2
  have hlen2 := congrArg List.length hq2
  simp only [List.length_append] at hlen2
  exact (List.append_inj hq2 (by omega)).1

theorem localAttPayload_ne_principal (att : Attestation) (i : Nat) (c w : Char)
    (hplain : ∀ x ∈ att.principal.data, x ≠ '"' ∧ x ≠ '\\' ∧ 32 ≤ x.toNat)
    (hw : att.principal.data[i]? = some w) (hc : c ≠ w) :
    localAttPayload { att with principal := String.mk (att.principal.data.set i c) } ≠
      localAttPayload att := by
  intro h
  have h1 : utfBytes (jsonAttPayloadL att.version
        (String.mk (att.principal.data.set i c)) (hexOfBytes att.nodePublicKey)
        att.issuedAt att.expiresAt (hexOfBytes att.nonce) att.domain) =
      utfBytes (jsonAttPayloadL att.version att.principal
        (hexOfBytes att.nodePublicKey) att.issuedAt att.expiresAt
        (hexOfBytes att.nonce) att.domain) := h
  have h2 := jsonPayload_inj_p (utfBytes_inj h1)
  have h3 : jsonEscL (att.principal.data.set i c) = jsonEscL att.principal.data := h2
  exact jsonEscL_set_ne att.principal.data i c w hplain hw hc h3

theorem localAttPayload_ne_npk (att : Attestation) (i v w : Nat) (hv : v < 256)
    (hbytes : ∀ b ∈ att.nodePublicKey, b < 256)
    (hw : att.nodePublicKey[i]? = some w) (hne : v ≠ w) :
    localAttPayload { att with nodePublicKey := att.nodePublicKey.set i v } ≠
      localAttPayload att := by
  intro h
  have h1 : utfBytes (jsonAttPayloadL att.version att.principal
        (hexOfBytes (att.nodePublicKey.set i v)) att.issuedAt att.expiresAt
        (hexOfBytes att.nonce) att.domain) =
      utfBytes (jsonAttPayloadL att.version att.principal
        (hexOfBytes att.nodePublicKey) att.issuedAt att.expiresAt
        (hexOfBytes att.nonce) att.domain) := h
  have h2 := jsonPayload_inj_npk (utfBytes_inj h1)
  rw [jsonEscL_plain _ (hexOfBytes_plain _), jsonEscL_plain _ (hexOfBytes_plain _)] at h2
  have hsetbytes : ∀ b ∈ att.nodePublicKey.set i v, b < 256 := by
    intro b hb
    rcases List.mem_or_eq_of_mem_set hb with hb1 | hb1
    · exact hbytes b hb1
    · rw [hb1]; exact hv
  have h3 := hexOfBytes_inj hsetbytes hbytes (string_ext h2)
  have hi := lt_of_getElem?_eq_some hw
  have h4 := congrArg (fun x => x[i]?) h3
  simp only at h4
  rw [List.getElem?_set_self hi, hw] at h4
  injection h4 with h5
  exact hne h5

theorem cborAttPayload_ne_principal (att : Attestation) (i : Nat) (c w : Char)
    (hw : att.principal.data[i]? = some w) (hc : c ≠ w) :
    cborAttPayload { att with principal := String.mk (att.principal.data.set i c) } ≠
      cborAttPayload att := by
  intro h
  have h1 : (167 : Nat) :: att.version ::
      (encStr (String.mk (att.principal.data.set i c)) ++
        (encStr (hexOfBytes att.nodePublicKey) ++
          (encI att.issuedAt ++
            (encI att.expiresAt ++ (encB att.nonce ++ encStr att.domain))))) =
      167 :: att.version ::
        (encStr att.principal ++
          (encStr (hexOfBytes att.nodePublicKey) ++
            (encI att.issuedAt ++
              (encI att.expiresAt ++ (encB att.nonce ++ encStr att.domain))))) := h
  injection h1 with _ h2
  injection h2 with _ h3
  have hlen := congrArg List.length h3
  simp only [List.length_append] at hlen
  have hstr := (List.append_inj h3 (by omega)).1
  unfold encStr at hstr
  injection hstr with _ h4
  have h5 : (att.principal.data.set i c).map Char.toNat =
      att.principal.data.map Char.toNat := h4
  have h6 := map_toNat_inj h5
  have hi := lt_of_getElem?_eq_some hw
  have h7 := congrArg (fun x => x[i]?) h6
  simp only at h7
  rw [List.getElem?_set_self hi, hw] at h7
  injection h7 with h8
  exact hc h8

theorem cborAttPayload_ne_npk (att : Attestation) (i v w : Nat) (hv : v < 256)
    (hbytes : ∀ b ∈ att.nodePublicKey, b < 256)
    (hw : att.nodePublicKey[i]? = some w) (hne : v ≠ w) :
    cborAttPayload { att with nodePublicKey := att.nodePublicKey.set i v } ≠
      cborAttPayload att := by
  intro h
  have h1 : (167 : Nat) :: att.version ::
      (encStr att.principal ++
        (encStr (hexOfBytes (att.nodePublicKey.set i v)) ++
          (encI att.issuedAt ++
            (encI att.expiresAt ++ (encB att.nonce ++ encStr att.domain))))) =
      167 :: att.version ::
        (encStr att.principal ++
          (encStr (hexOfBytes att.nodePublicKey) ++
            (encI att.issuedAt ++
              (encI att.expiresAt ++ (encB att.nonce ++ encStr att.domain))))) := h
  injection h1 with _ h2
  injection h2 with _ h3
  have h4 := List.append_cancel_left h3
  have hlen := congrArg List.length h4
  simp only [List.length_append] at hlen
  have hstr := (List.append_inj h4 (by omega)).1
  unfold encStr at hstr
  injection hstr with _ h5
  have h6 := map_toNat_inj h5
  have hsetbytes : ∀ b ∈ att.nodePublicKey.set i v, b < 256 := by
    intro b hb
    rcases List.mem_or_eq_of_mem_set hb with hb1 | hb1
    · exact hbytes b hb1
    · rw [hb1]; exact hv
  have h7 := hexOfBytes_inj hsetbytes hbytes (string_ext h6)
  have hi := lt_of_getElem?_eq_some hw
  have h8 := congrArg (fun x => x[i]?) h7
  simp only at h8
  rw [List.getElem?_set_self hi, hw] at h8
  injection h8 with h9
  exact hne h9

theorem jsonAttPayloadL_getElem_one (v : Nat) (p n : String) (ts ex : Int)
    (o d : String) : (jsonAttPayloadL v p n ts ex o d)[1]? = some '"' := by
  unfold jsonAttPayloadL
  have h4 : ("\x7b\"v\":" : String).data.length = 5 := by decide
  rw [List.getElem?_append_left
    (show 1 < (("\x7b\"v\":" ++ toString v ++ ",\"p\":") : String).data.length by
      rw [String.data_append, String.data_append, List.length_append,
        List.length_append, h4]
      omega)]
  rw [String.data_append, String.data_append]
  rw [List.getElem?_append_left
    (show 1 < (("\x7b\"v\":" : String).data ++ (toString v).data).length by
      rw [List.length_append, h4]
      omega)]
  rw [List.getElem?_append_left (show 1 < ("\x7b\"v\":" : String).data.length by omega)]
  decide

theorem localAttPayload_getElem_one (att : Attestation) :
    (localAttPayload att)[1]? = some 34 := by
  show ((jsonAttPayloadL att.version att.principal (hexOfBytes att.nodePublicKey)
      att.issuedAt att.expiresAt (hexOfBytes att.nonce) att.domain).map Char.toNat)[1]? =
    some 34
  rw [List.getElem?_map, jsonAttPayloadL_getElem_one]
  rfl

theorem replFirstL_self (pat r : List Char) (h : pat ≠ []) :
    replFirstL pat (pat ++ r) = r := by
  cases pat with
  | nil => exact absurd rfl h
  | cons c p2 =>
    rw [List.cons_append, replFirstL]
    have hpre : ((c :: p2).isPrefixOf (c :: (p2 ++ r))) = true :=
      List.isPrefixOf_iff_prefix.mpr ⟨r, rfl⟩
    rw [if_pos hpre]
    show (p2 ++ r).drop p2.length = r
    exact List.drop_left _ _

/-! ### Reduction lemmas for the verifier's check chain -/

theorem verifyLocal_pass (now : Int) (att : Attestation)
    (h1 : att.version = 1) (h2 : att.domain = attDomain)
    (h3 : ¬ (att.nonce.length < 16 ∨ 32 < att.nonce.length))
    (h4 : ¬ att.expiresAt ≤ now - 300) (h5 : ¬ att.issuedAt > now + 300)
    (h6 : att.nodePublicKey.length = 32)
    (h7 : strStarts "local:" att.principal = true) :
    verifyLocalAttestation now att =
      match hexDecode (strDrop 6 att.principal) with
      | none => false
      | some pk =>
        if pk.length ≠ 32 then false
        else edVerify att.signature (localAttPayload att) pk := by
  unfold verifyLocalAttestation
  rw [if_neg (not_not_intro h1), if_neg (not_not_intro h2), if_neg h3, if_neg h4,
    if_neg h5, if_neg (not_not_intro h6), if_neg (not_not_intro h7)]

theorem verifyLocal_time_fail (now : Int) (att : Attestation)
    (h1 : att.version = 1) (h2 : att.domain = attDomain)
    (h3 : ¬ (att.nonce.length < 16 ∨ 32 < att.nonce.length))
    (h : att.expiresAt ≤ now - 300 ∨ att.issuedAt > now + 300) :
    verifyLocalAttestation now att = false := by
  unfold verifyLocalAttestation
  rw [if_neg (not_not_intro h1), if_neg (not_not_intro h2), if_neg h3]
  rcases h with h | h
  · rw [if_pos h]
  · by_cases hexp : att.expiresAt ≤ now - 300
    · rw [if_pos hexp]
    · rw [if_neg hexp, if_pos h]

theorem verifyStacks_pass (now : Int) (att : Attestation) (tn : Bool)
    (h1 : att.version = 1) (h2 : att.domain = attDomain)
    (h3 : ¬ (att.nonce.length < 16 ∨ 32 < att.nonce.length))
    (h4 : ¬ att.expiresAt ≤ now - 300) (h5 : ¬ att.issuedAt > now + 300)
    (h6 : att.nodePublicKey.length = 32) :
    verifyStacksAttestation true now att tn =
      verifyWalletSignature (cborAttPayload att) att.signature
        (strReplaceFirst "stacks:" att.principal) tn := by
  unfold verifyStacksAttestation
  rw [if_neg (not_not_intro h1), if_neg (not_not_intro h2), if_neg h3, if_neg h4,
    if_neg h5, if_neg (not_not_intro h6), if_neg (not_not_intro rfl)]

theorem verifyStacks_time_fail (wl : Bool) (now : Int) (att : Attestation) (tn : Bool)
    (h1 : att.version = 1) (h2 : att.domain = attDomain)
    (h3 : ¬ (att.nonce.length < 16 ∨ 32 < att.nonce.length))
    (h : att.expiresAt ≤ now - 300 ∨ att.issuedAt > now + 300) :
    verifyStacksAttestation wl now att tn = false := by
  unfold verifyStacksAttestation
  rw [if_neg (not_not_intro h1), if_neg (not_not_intro h2), if_neg h3]
  rcases h with h | h
  · rw [if_pos h]
  · by_cases hexp : att.expiresAt ≤ now - 300
    · rw [if_pos hexp]
    · rw [if_neg hexp, if_pos h]

theorem verifyStacks_wl_false (now : Int) (att : Attestation) (tn : Bool)
    (h1 : att.version = 1) (h2 : att.domain = attDomain)
    (h3 : ¬ (att.nonce.length < 16 ∨ 32 < att.nonce.length))
    (h4 : ¬ att.expiresAt ≤ now - 300) (h5 : ¬ att.issuedAt > now + 300)
    (h6 : att.nodePublicKey.length = 32) :
    verifyStacksAttestation false now att tn = false := by
  unfold verifyStacksAttestation
  rw [if_neg (not_not_intro h1), if_neg (not_not_intro h2), if_neg h3, if_neg h4,
    if_neg h5, if_neg (not_not_intro h6), if_pos Bool.false_ne_true]

theorem verifyAtt_dispatch_local (wl : Bool) (now : Int) (att : Attestation)
    (tn : Bool) (h : strStarts "local:" att.principal = true) :
    verifyAttestation wl now att tn = verifyLocalAttestation now att := by
  unfold verifyAttestation identityModeFromPrincipal
  rw [if_pos h]

theorem verifyAtt_of_nonlocal (wl : Bool) (now : Int) (att : Attestation)
    (tn : Bool) (h : strStarts "local:" att.principal = false) :
    verifyAttestation wl now att tn = verifyStacksAttestation wl now att tn := by
  unfold verifyAttestation identityModeFromPrincipal
  rw [if_neg (show ¬ (strStarts "local:" att.principal = true) by
    rw [h]; exact Bool.false_ne_true)]
  by_cases h2 : strStarts "stacks:" att.principal = true
  · rw [if_pos h2]
  · rw [if_neg h2]

/-- The conjunction of verification properties claimed for a generated
attestation: accepted throughout its validity window (with the wallet
module loaded), rejected strictly before `issuedAt − 300` and strictly
after `expiresAt + 300`, and rejected after any single byte flip of the
signature, the principal, or the node public key. -/
def VerifySpecAt (tn : Bool) (A : Attestation) : Prop :=
  (∀ t, A.issuedAt ≤ t → t < A.expiresAt → verifyAttestation true t A tn = true) ∧
  (∀ wl t, t < A.issuedAt - 300 → verifyAttestation wl t A tn = false) ∧
  (∀ wl t, A.expiresAt + 300 < t → verifyAttestation wl t A tn = false) ∧
  (∀ wl t i v w, A.signature[i]? = some w → v ≠ w → v < 256 →
    verifyAttestation wl t { A with signature := A.signature.set i v } tn = false) ∧
  (∀ wl t i c w, A.principal.data[i]? = some w → c ≠ w →
    verifyAttestation wl t
      { A with principal := String.mk (A.principal.data.set i c) } tn = false) ∧
  (∀ wl t i v w, A.nodePublicKey[i]? = some w → v ≠ w → v < 256 →
    verifyAttestation wl t
      { A with nodePublicKey := A.nodePublicKey.set i v } tn = false)

theorem verify_spec_of_local (tn : Bool) (att : Attestation) (pk : List Nat)
    (hver : att.version = 1) (hdom : att.domain = attDomain)
    (hnon : 16 ≤ att.nonce.length ∧ att.nonce.length ≤ 32)
    (hnpk : att.nodePublicKey.length = 32)
    (hnpkbytes : ∀ b ∈ att.nodePublicKey, b < 256)
    (hlen : pk.length = 32) (hbytes : ∀ b ∈ pk, b < 256)
    (hprin : att.principal = "local:" ++ hexOfBytes pk)
    (hsig : att.signature = pk ++ localAttPayload att) :
    VerifySpecAt tn att := by
  have hPmk : att.principal =
      String.mk (("local:" : String).data ++ (hexOfBytes pk).data) := by
    rw [hprin, ← String.data_append, mk_data]
  have hdata : att.principal.data =
      ("local:" : String).data ++ (hexOfBytes pk).data := congrArg String.data hPmk
  have hP6 : strStarts "local:" att.principal = true := by
    rw [hPmk]
    exact strStarts_mk_append "local:" _
  have hdrop : strDrop 6 att.principal = hexOfBytes pk := by
    rw [hPmk]
    exact (strDrop_mk_append "local:" _).trans (mk_data _)
  have hdec : hexDecode (strDrop 6 att.principal) = some pk := by
    rw [hdrop]
    exact hexDecode_hexOfBytes pk hbytes
  have hP0 : att.principal.data[0]? = some 'l' := by
    rw [hdata, List.getElem?_append_left (by decide)]
    decide
  have hP1 : att.principal.data[1]? = some 'o' := by
    rw [hdata, List.getElem?_append_left (by decide)]
    decide
  have hplain : ∀ x ∈ att.principal.data, x ≠ '"' ∧ x ≠ '\\' ∧ 32 ≤ x.toNat := by
    intro x hx
    rw [hdata] at hx
    rcases List.mem_append.mp hx with h1 | h1
    · have hloc : ∀ y ∈ ("local:" : String).data,
          y ≠ '"' ∧ y ≠ '\\' ∧ 32 ≤ y.toNat := by decide
      exact hloc x h1
    · exact hexOfBytes_plain pk x h1
  have hnonX : ¬ (att.nonce.length < 16 ∨ 32 < att.nonce.length) := by omega
  refine ⟨?_, ?_, ?_, ?_, ?_, ?_⟩
  · intro t ht1 ht2
    rw [verifyAtt_dispatch_local true t att tn hP6]
    rw [verifyLocal_pass t att hver hdom (by omega) (by omega) (by omega) hnpk hP6]
    rw [hdec]
    show (if pk.length ≠ 32 then false
      else edVerify att.signature (localAttPayload att) pk) = true
    rw [if_neg (not_not_intro hlen)]
    exact decide_eq_true hsig
  · intro wl t ht
    rw [verifyAtt_dispatch_local wl t att tn hP6]
    exact verifyLocal_time_fail t att hver hdom (by omega) (Or.inr (by omega))
  · intro wl t ht
    rw [verifyAtt_dispatch_local wl t att tn hP6]
    exact verifyLocal_time_fail t att hver hdom (by omega) (Or.inl (by omega))
  · intro wl t i v w hw hne hv
    rw [verifyAtt_dispatch_local wl t
      { att with signature := att.signature.set i v } tn hP6]
    by_cases htime : att.expiresAt ≤ t - 300 ∨ att.issuedAt > t + 300
    · exact verifyLocal_time_fail t
        { att with signature := att.signature.set i v } hver hdom hnonX htime
    · have h4 : ¬ att.expiresAt ≤ t - 300 := fun hh => htime (Or.inl hh)
      have h5 : ¬ att.issuedAt > t + 300 := fun hh => htime (Or.inr hh)
      rw [verifyLocal_pass t { att with signature := att.signature.set i v }
        hver hdom hnonX h4 h5 hnpk hP6]
      have hdec2 : hexDecode (strDrop 6
          ({ att with signature := att.signature.set i v } : Attestation).principal) =
          some pk := hdec
      rw [hdec2]
      show (if pk.length ≠ 32 then false
        else edVerify (att.signature.set i v) (localAttPayload att) pk) = false
      rw [if_neg (not_not_intro hlen)]
      refine decide_eq_false ?_
      intro hEq
      rw [← hsig] at hEq
      have hi := lt_of_getElem?_eq_some hw
      have h2 := congrArg (fun l => l[i]?) hEq
      simp only at h2
      rw [List.getElem?_set_self hi, hw] at h2
      injection h2 with h3
      exact hne h3
  · intro wl t i c w hw hne
    have hi := lt_of_getElem?_eq_some hw
    by_cases hi6 : i < 6
    · -- the flip breaks the `local:` prefix: dispatch falls through to
      -- stacks verification, whose wallet check cannot accept an Ed25519
      -- signature over the JSON payload
      have hw6 : ("local:" : String).data[i]? = some w := by
        have h6 : ("local:" : String).data.length = 6 := rfl
        rw [hdata, List.getElem?_append_left (by omega)] at hw
        exact hw
      have hstart1 : strStarts "local:"
          (String.mk (att.principal.data.set i c)) = false := by
        refine strStarts_false_of _ _ i w c hw6 ?_ (fun hh => hne hh.symm)
        exact List.getElem?_set_self hi
      rw [verifyAtt_of_nonlocal wl t
        { att with principal := String.mk (att.principal.data.set i c) } tn hstart1]
      by_cases htime : att.expiresAt ≤ t - 300 ∨ att.issuedAt > t + 300
      · exact verifyStacks_time_fail wl t
          { att with principal := String.mk (att.principal.data.set i c) } tn hver hdom hnonX htime
      · have h4 : ¬ att.expiresAt ≤ t - 300 := fun hh => htime (Or.inl hh)
        have h5 : ¬ att.issuedAt > t + 300 := fun hh => htime (Or.inr hh)
        cases wl with
        | false =>
            exact verifyStacks_wl_false t
              { att with principal := String.mk (att.principal.data.set i c) } tn hver hdom hnonX h4 h5 hnpk
        | true =>
          rw [verifyStacks_pass t
            { att with principal := String.mk (att.principal.data.set i c) } tn
            hver hdom hnonX h4 h5 hnpk]
          refine decide_eq_false ?_
          intro hcl
          rcases hcl with ⟨_, h2, _⟩
          have e1 : (pk ++ localAttPayload att).drop 32 = localAttPayload att := by
            rw [← hlen]
            exact List.drop_left _ _
          have e2 : (pk ++ localAttPayload att).drop 33 = (localAttPayload att).drop 1 := by
            have e3 : (33 : Nat) = 32 + 1 := rfl
            rw [e3, ← List.drop_drop, e1]
          have h2b : (localAttPayload att).drop 1 = cborAttPayload
              { att with principal := String.mk (att.principal.data.set i c) } := by
            rw [← e2, ← hsig]
            exact h2
          have h3 := congrArg (fun l => l[0]?) h2b
          simp only at h3
          rw [List.getElem?_drop] at h3
          have h4b : (localAttPayload att)[1 + 0]? = some 34 :=
            localAttPayload_getElem_one att
          rw [h4b] at h3
          have h5b : (cborAttPayload { att with
              principal := String.mk (att.principal.data.set i c) })[0]? =
              some 167 := rfl
          rw [h5b] at h3
          injection h3 with h6
          exact absurd h6 (by decide)
    · -- the flip stays inside the hex region: the prefix survives and the
      -- reconstructed JSON payload no longer matches the signature
      have hset : att.principal.data.set i c =
          ("local:" : String).data ++ ((hexOfBytes pk).data.set (i - 6) c) := by
        rw [hdata]
        have h6 : ("local:" : String).data.length = 6 := rfl
        rw [set_append_right' _ _ _ _ (by omega), h6]
      have hstart1 : strStarts "local:"
          (String.mk (att.principal.data.set i c)) = true := by
        rw [hset]
        exact strStarts_mk_append "local:" _
      have hdrop2 : strDrop 6 (String.mk (att.principal.data.set i c)) =
          String.mk ((hexOfBytes pk).data.set (i - 6) c) := by
        rw [hset]
        exact strDrop_mk_append "local:" _
      rw [verifyAtt_dispatch_local wl t
        { att with principal := String.mk (att.principal.data.set i c) } tn hstart1]
      by_cases htime : att.expiresAt ≤ t - 300 ∨ att.issuedAt > t + 300
      · exact verifyLocal_time_fail t
          { att with principal := String.mk (att.principal.data.set i c) } hver hdom hnonX htime
      · have h4 : ¬ att.expiresAt ≤ t - 300 := fun hh => htime (Or.inl hh)
        have h5 : ¬ att.issuedAt > t + 300 := fun hh => htime (Or.inr hh)
        rw [verifyLocal_pass t
          { att with principal := String.mk (att.principal.data.set i c) }
          hver hdom hnonX h4 h5 hnpk hstart1]
        have hdrop3 : strDrop 6 ({ att with
            principal := String.mk (att.principal.data.set i c) } : Attestation).principal =
            String.mk ((hexOfBytes pk).data.set (i - 6) c) := hdrop2
        rw [hdrop3]
        cases hdec2 : hexDecode (String.mk ((hexOfBytes pk).data.set (i - 6) c)) with
        | none => rfl
        | some pk2 =>
          show (if pk2.length ≠ 32 then false
            else edVerify att.signature (localAttPayload
              { att with principal := String.mk (att.principal.data.set i c) }) pk2) = false
          by_cases hl32 : pk2.length = 32
          · rw [if_neg (not_not_intro hl32)]
            refine decide_eq_false ?_
            intro hEq
            rw [hsig] at hEq
            obtain ⟨_, hpay⟩ := List.append_inj hEq (by rw [hlen, hl32])
            exact localAttPayload_ne_principal att i c w hplain hw hne hpay.symm
          · rw [if_pos hl32]
  · intro wl t i v w hw hne hv
    have hnpk2 : ({ att with nodePublicKey := att.nodePublicKey.set i v } :
        Attestation).nodePublicKey.length = 32 := by
      show (att.nodePublicKey.set i v).length = 32
      rw [List.length_set]
      exact hnpk
    rw [verifyAtt_dispatch_local wl t
      { att with nodePublicKey := att.nodePublicKey.set i v } tn hP6]
    by_cases htime : att.expiresAt ≤ t - 300 ∨ att.issuedAt > t + 300
    · exact verifyLocal_time_fail t
        { att with nodePublicKey := att.nodePublicKey.set i v } hver hdom hnonX htime
    · have h4 : ¬ att.expiresAt ≤ t - 300 := fun hh => htime (Or.inl hh)
      have h5 : ¬ att.issuedAt > t + 300 := fun hh => htime (Or.inr hh)
      rw [verifyLocal_pass t { att with nodePublicKey := att.nodePublicKey.set i v }
        hver hdom hnonX h4 h5 hnpk2 hP6]
      have hdec2 : hexDecode (strDrop 6 ({ att with
          nodePublicKey := att.nodePublicKey.set i v } : Attestation).principal) =
          some pk := hdec
      rw [hdec2]
      show (if pk.length ≠ 32 then false
        else edVerify att.signature (localAttPayload
          { att with nodePublicKey := att.nodePublicKey.set i v }) pk) = false
      rw [if_neg (not_not_intro hlen)]
      refine decide_eq_false ?_
      intro hEq
      rw [hsig] at hEq
      have hpay := List.append_cancel_left hEq
      exact localAttPayload_ne_npk att i v w hv hnpkbytes hw hne hpay.symm

theorem verify_spec_of_stacks (tn : Bool) (att : Attestation) (wpk : List Nat)
    (hver : att.version = 1) (hdom : att.domain = attDomain)
    (hnon : 16 ≤ att.nonce.length ∧ att.nonce.length ≤ 32)
    (hnpk : att.nodePublicKey.length = 32)
    (hnpkbytes : ∀ b ∈ att.nodePublicKey, b < 256)
    (hwlen : wpk.length = 33) (hwbytes : ∀ b ∈ wpk, b < 256)
    (hprin : att.principal = "stacks:" ++ stacksAddr tn wpk)
    (hsig : att.signature = wpk ++ cborAttPayload att) :
    VerifySpecAt tn att := by
  have hPmk : att.principal =
      String.mk (("stacks:" : String).data ++ (stacksAddr tn wpk).data) := by
    rw [hprin, ← String.data_append, mk_data]
  have hdata : att.principal.data =
      ("stacks:" : String).data ++ (stacksAddr tn wpk).data := congrArg String.data hPmk
  have hP0 : att.principal.data[0]? = some 's' := by
    rw [hdata, List.getElem?_append_left (by decide)]
    decide
  have hP1 : att.principal.data[1]? = some 't' := by
    rw [hdata, List.getElem?_append_left (by decide)]
    decide
  have hlocF : strStarts "local:" att.principal = false :=
    strStarts_false_of _ _ 0 'l' 's' (by decide) hP0 (by decide)
  have hrepl : strReplaceFirst "stacks:" att.principal = stacksAddr tn wpk := by
    unfold strReplaceFirst
    rw [hdata, replFirstL_self _ _ (by decide), mk_data]
  have htake : att.signature.take 33 = wpk := by
    rw [hsig, show (33 : Nat) = wpk.length from hwlen.symm, List.take_left]
  have hdropS : att.signature.drop 33 = cborAttPayload att := by
    rw [hsig, show (33 : Nat) = wpk.length from hwlen.symm, List.drop_left]
  have hnonX : ¬ (att.nonce.length < 16 ∨ 32 < att.nonce.length) := by omega
  refine ⟨?_, ?_, ?_, ?_, ?_, ?_⟩
  · intro t ht1 ht2
    rw [verifyAtt_of_nonlocal true t att tn hlocF]
    rw [verifyStacks_pass t att tn hver hdom (by omega) (by omega) (by omega) hnpk]
    refine decide_eq_true ⟨?_, hdropS, ?_⟩
    · rw [hsig, List.length_append, hwlen]
      omega
    · rw [htake, hrepl]
  · intro wl t ht
    rw [verifyAtt_of_nonlocal wl t att tn hlocF]
    exact verifyStacks_time_fail wl t att tn hver hdom (by omega) (Or.inr (by omega))
  · intro wl t ht
    rw [verifyAtt_of_nonlocal wl t att tn hlocF]
    exact verifyStacks_time_fail wl t att tn hver hdom (by omega) (Or.inl (by omega))
  · intro wl t i v w hw hne hv
    rw [verifyAtt_of_nonlocal wl t
      { att with signature := att.signature.set i v } tn hlocF]
    by_cases htime : att.expiresAt ≤ t - 300 ∨ att.issuedAt > t + 300
    · exact verifyStacks_time_fail wl t
        { att with signature := att.signature.set i v } tn hver hdom hnonX htime
    · have h4 : ¬ att.expiresAt ≤ t - 300 := fun hh => htime (Or.inl hh)
      have h5 : ¬ att.issuedAt > t + 300 := fun hh => htime (Or.inr hh)
      cases wl with
      | false =>
          exact verifyStacks_wl_false t
            { att with signature := att.signature.set i v } tn hver hdom hnonX h4 h5 hnpk
      | true =>
        rw [verifyStacks_pass t { att with signature := att.signature.set i v } tn
          hver hdom hnonX h4 h5 hnpk]
        refine decide_eq_false ?_
        intro hcl
        rcases hcl with ⟨_, h2, h3⟩
        have hi := lt_of_getElem?_eq_some hw
        by_cases hi33 : i < 33
        · have hset : att.signature.set i v = wpk.set i v ++ cborAttPayload att := by
            rw [hsig, set_append_left' _ _ _ _ (by omega : i < wpk.length)]
          have htake2 : (att.signature.set i v).take 33 = wpk.set i v := by
            rw [hset, show (33 : Nat) = (wpk.set i v).length from
              by rw [List.length_set, hwlen], List.take_left]
          have hrepl2 : strReplaceFirst "stacks:" ({ att with
              signature := att.signature.set i v } : Attestation).principal =
              stacksAddr tn wpk := hrepl
          have h3b : stacksAddr tn ((att.signature.set i v).take 33) =
              stacksAddr tn wpk := h3.trans hrepl2
          rw [htake2] at h3b
          have hwpkset : ∀ b ∈ wpk.set i v, b < 256 := by
            intro b hb
            rcases List.mem_or_eq_of_mem_set hb with hb1 | hb1
            · exact hwbytes b hb1
            · rw [hb1]; exact hv
          have heq := stacksAddr_inj hwpkset hwbytes h3b
          have hiw : i < wpk.length := by omega
          have h6 := congrArg (fun l => l[i]?) heq
          simp only at h6
          rw [List.getElem?_set_self hiw] at h6
          have hw2 : wpk[i]? = some w := by
            rw [show wpk[i]? = (wpk ++ cborAttPayload att)[i]? from
              (List.getElem?_append_left hiw).symm, ← hsig]
            exact hw
          rw [hw2] at h6
          injection h6 with h7
          exact hne h7
        · have hset : att.signature.set i v =
              wpk ++ (cborAttPayload att).set (i - 33) v := by
            rw [hsig, set_append_right' _ _ _ _ (by omega : wpk.length ≤ i), hwlen]
          have hdrop2 : (att.signature.set i v).drop 33 =
              (cborAttPayload att).set (i - 33) v := by
            rw [hset, show (33 : Nat) = wpk.length from hwlen.symm, List.drop_left]
          have h2b : (att.signature.set i v).drop 33 = cborAttPayload att := h2
          rw [hdrop2] at h2b
          have hip : i - 33 < (cborAttPayload att).length := by
            have hslen2 : att.signature.length = 33 + (cborAttPayload att).length := by
              rw [hsig, List.length_append, hwlen]
            omega
          have h6 := congrArg (fun l => l[i - 33]?) h2b
          simp only at h6
          rw [List.getElem?_set_self hip] at h6
          have hw2 : (cborAttPayload att)[i - 33]? = some w := by
            have hsplit : att.signature[i]? = (cborAttPayload att)[i - wpk.length]? := by
              rw [hsig]
              exact List.getElem?_append_right (by omega)
            rw [hwlen] at hsplit
            rw [← hsplit]
            exact hw
          rw [hw2] at h6
          injection h6 with h7
          exact hne h7
  · intro wl t i c w hw hne
    have hi := lt_of_getElem?_eq_some hw
    have hstart1 : strStarts "local:"
        (String.mk (att.principal.data.set i c)) = false := by
      by_cases hizero : i = 0
      · refine strStarts_false_of _ _ 1 'o' 't' (by decide) ?_ (by decide)
        show (att.principal.data.set i c)[1]? = some 't'
        rw [List.getElem?_set_ne (by omega : i ≠ 1)]
        exact hP1
      · refine strStarts_false_of _ _ 0 'l' 's' (by decide) ?_ (by decide)
        show (att.principal.data.set i c)[0]? = some 's'
        rw [List.getElem?_set_ne (by omega : i ≠ 0)]
        exact hP0
    rw [verifyAtt_of_nonlocal wl t
      { att with principal := String.mk (att.principal.data.set i c) } tn hstart1]
    by_cases htime : att.expiresAt ≤ t - 300 ∨ att.issuedAt > t + 300
    · exact verifyStacks_time_fail wl t
        { att with principal := String.mk (att.principal.data.set i c) } tn hver hdom hnonX htime
    · have h4 : ¬ att.expiresAt ≤ t - 300 := fun hh => htime (Or.inl hh)
      have h5 : ¬ att.issuedAt > t + 300 := fun hh => htime (Or.inr hh)
      cases wl with
      | false =>
          exact verifyStacks_wl_false t
            { att with principal := String.mk (att.principal.data.set i c) } tn hver hdom hnonX h4 h5 hnpk
      | true =>
        rw [verifyStacks_pass t
          { att with principal := String.mk (att.principal.data.set i c) } tn
          hver hdom hnonX h4 h5 hnpk]
        refine decide_eq_false ?_
        intro hcl
        rcases hcl with ⟨_, h2, _⟩
        have h2b : att.signature.drop 33 = cborAttPayload
            { att with principal := String.mk (att.principal.data.set i c) } := h2
        rw [hdropS] at h2b
        exact cborAttPayload_ne_principal att i c w hw hne h2b.symm
  · intro wl t i v w hw hne hv
    have hnpk2 : ({ att with nodePublicKey := att.nodePublicKey.set i v } :
        Attestation).nodePublicKey.length = 32 := by
      show (att.nodePublicKey.set i v).length = 32
      rw [List.length_set]
      exact hnpk
    rw [verifyAtt_of_nonlocal wl t
      { att with nodePublicKey := att.nodePublicKey.set i v } tn hlocF]
    by_cases htime : att.expiresAt ≤ t - 300 ∨ att.issuedAt > t + 300
    · exact verifyStacks_time_fail wl t
        { att with nodePublicKey := att.nodePublicKey.set i v } tn hver hdom hnonX htime
    · have h4 : ¬ att.expiresAt ≤ t - 300 := fun hh => htime (Or.inl hh)
      have h5 : ¬ att.issuedAt > t + 300 := fun hh => htime (Or.inr hh)
      cases wl with
      | false =>
          exact verifyStacks_wl_false t
            { att with nodePublicKey := att.nodePublicKey.set i v } tn hver hdom hnonX h4 h5 hnpk2
      | true =>
        rw [verifyStacks_pass t
          { att with nodePublicKey := att.nodePublicKey.set i v } tn
          hver hdom hnonX h4 h5 hnpk2]
        refine decide_eq_false ?_
        intro hcl
        rcases hcl with ⟨_, h2, _⟩
        have h2b : att.signature.drop 33 = cborAttPayload
            { att with nodePublicKey := att.nodePublicKey.set i v } := h2
        rw [hdropS] at h2b
        exact cborAttPayload_ne_npk att i v w hv hnpkbytes hw hne h2b.symm

/-- A well-formed identity for testnet flag `tn`, as `createIdentity`
produces them: local mode with the Ed25519 key pair and the
`local:<hex-pubkey>` principal, or stacks mode with a 32-byte Ed25519 node
key, a 33-byte wallet key and the `stacks:<address>` principal. -/
def GoodId (tn : Bool) (id : FullIdentity) : Prop :=
  (id.mode = IdMode.localMode ∧ id.publicKey = edPub id.privateKey ∧
    id.publicKey.length = 32 ∧ (∀ b ∈ id.publicKey, b < 256) ∧
    id.principal = "local:" ++ hexOfBytes id.publicKey) ∨
  (id.mode = IdMode.stacksMode ∧ id.publicKey.length = 32 ∧
    (∀ b ∈ id.publicKey, b < 256) ∧
    id.walletPrivateKey.length = 33 ∧ (∀ b ∈ id.walletPrivateKey, b < 256) ∧
    id.principal = "stacks:" ++ stacksAddr tn (wPub id.walletPrivateKey))

/-- C3.  For every attestation generated by `createAttestation`
(identity/keys.ts) from a well-formed identity of either mode, with the
32-byte nonce `randomBytes(32)` supplies: `verifyAttestation` accepts it
throughout its validity window (with the wallet module loaded, where
stacks verification needs it), rejects it strictly before
`issuedAt − 300 s` and strictly after `expiresAt + 300 s`, and rejects it
after any single byte flip of the signature, the principal, or the node
public key.  The verifiers are translated from identity/local.ts and
identity/keys.ts; the external Ed25519, CBOR and wallet primitives are
idealised. -/
theorem attestation_verify_spec (tn : Bool) (id : FullIdentity)
    (validity now0 : Int) (nonce : List Nat) (att : Attestation)
    (hid : GoodId tn id) (hnonce : nonce.length = 32)
    (hA : att = createAttestation id validity now0 nonce) :
    VerifySpecAt tn att := by
  subst hA
  rcases hid with ⟨hmode, hkey, hlen, hbytes, hprin⟩ |
    ⟨hmode, hnlen, hnbytes, hwlen, hwbytes, hprin⟩
  · have hceq : createAttestation id validity now0 nonce =
        createLocalAttestation
          { publicKey := id.publicKey, privateKey := id.privateKey,
            principal := id.principal }
          id.publicKey validity now0 nonce := by
      unfold createAttestation
      rw [hmode]
    rw [hceq]
    refine verify_spec_of_local tn _ id.publicKey rfl rfl ?_ ?_ ?_ hlen hbytes ?_ ?_
    · have h16 : (16 : Nat) ≤ nonce.length := by omega
      have h32 : nonce.length ≤ 32 := by omega
      exact ⟨h16, h32⟩
    · exact hlen
    · exact hbytes
    · exact hprin
    · show edSign id.privateKey _ = id.publicKey ++ _
      rw [hkey]
      rfl
  · have hceq : createAttestation id validity now0 nonce =
        { version := 1, principal := id.principal, nodePublicKey := id.publicKey,
          issuedAt := now0, expiresAt := now0 + validity, nonce := nonce,
          domain := attDomain,
          signature := wSign id.walletPrivateKey (cborAttPayload
            { version := 1, principal := id.principal,
              nodePublicKey := id.publicKey, issuedAt := now0,
              expiresAt := now0 + validity, nonce := nonce,
              domain := attDomain, signature := [] }) } := by
      unfold createAttestation
      rw [hmode]
    rw [hceq]
    refine verify_spec_of_stacks tn _ (wPub id.walletPrivateKey) rfl rfl ?_ ?_ ?_ ?_ ?_ ?_ ?_
    · have h16 : (16 : Nat) ≤ nonce.length := by omega
      have h32 : nonce.length ≤ 32 := by omega
      exact ⟨h16, h32⟩
    · exact hnlen
    · exact hnbytes
    · exact hwlen
    · exact hwbytes
    · exact hprin
    · rfl

/-- Concrete local identity used to witness the attestation theorem. -/
def idW : FullIdentity :=
  { mode := IdMode.localMode, principal := "local:" ++ hexOfBytes (List.range 32),
    publicKey := List.range 32, privateKey := List.range 32,
    walletPrivateKey := [], testnet := false }

theorem attestation_verify_spec_witness :
    GoodId false idW ∧ (List.replicate 32 5 : List Nat).length = 32 ∧
    VerifySpecAt false (createAttestation idW 86400 1000 (List.replicate 32 5)) := by
  have hid : GoodId false idW := Or.inl ⟨rfl, rfl, by decide, by decide, rfl⟩
  have hnonce : (List.replicate 32 5 : List Nat).length = 32 := by decide
  exact ⟨hid, hnonce,
    attestation_verify_spec false idW 86400 1000 (List.replicate 32 5) _ hid hnonce rfl⟩

/-- C6 counterexample.  Two PX-1 records for the same principal, carrying
addresses "/a" and "/b", merged into an empty peer book in the two orders,
yield different daemon states: the merged address strings are "/a,/b" and
"/b,/a".  The literal any-order part of the claim is false. -/
theorem px1_merge_not_commutative :
    handleReceivedPeers st0 [rCA, rCB] ≠ handleReceivedPeers st0 [rCB, rCA] := by
  decide

end Clawchat
